import Mathlib

/-!
# json2xml: the JSON-token to XML-token transducer

A shallow embedding of `convert.go`.

* The JSON token source (`*json.Decoder`) is a state machine over an arbitrary
  state type `σ`: one read is `decoderToken : σ → Except Error JToken × σ`.
* The XML sink (`*xml.Encoder`) is a state machine over an arbitrary state
  type `τ`: `EncodeToken : τ → XToken → Option Error × τ`.
* A Go run-time panic (the index `c.types[len(c.types)-1]` on an empty slice in
  `outputEnd`) is the result `none`.
* The `for` loop of `Convert` takes a bound on the number of iterations; the
  status `running` says that the bound was reached before the loop returned.
-/

namespace Json2xml

/-! ## Data model -/

/-- Go's `error` values as far as the code tells them apart: `io.EOF` and the rest. -/
inductive Error where
  | EOF
  | other (msg : String)
  deriving DecidableEq, Repr

/-- The four values of `json.Delim` that `json.Decoder.Token` returns. -/
inductive Delim where
  | objOpen
  | arrOpen
  | objClose
  | arrClose
  deriving DecidableEq, Repr

/-- A `float64`, kept as its 64-bit pattern; the code only hands it to `strconv.FormatFloat`. -/
abbrev float64 := Nat

/-- The dynamic types of a `json.Token` that `json.Decoder.Token` returns. -/
inductive JToken where
  | Delim (d : Delim)
  | bool (b : Bool)
  | float64 (f : float64)
  | Number (s : String)
  | string (s : String)
  | null
  deriving DecidableEq, Repr

/-- An `xml.Attr`: the local part of its name and its value. -/
structure Attr where
  Name : String
  Value : String
  deriving DecidableEq, Repr

/-- The `xml.Token` values the converter builds; element names are the local part. -/
inductive XToken where
  | StartElement (Name : String) (Attr : List Attr)
  | CharData (s : String)
  | EndElement (Name : String)
  deriving DecidableEq, Repr

/-- The type `ttype byte`. -/
abbrev ttype := Nat

@[match_pattern, reducible] def typObject : ttype := 0
@[match_pattern, reducible] def typArray : ttype := 1
@[match_pattern, reducible] def typBool : ttype := 2
@[match_pattern, reducible] def typNumber : ttype := 3
@[match_pattern, reducible] def typString : ttype := 4
@[match_pattern, reducible] def typNull : ttype := 5

/-- The method `ttype.String`. -/
def ttype.String (t : ttype) : String :=
  match t with
  | 0 => "object"
  | 1 => "array"
  | 2 => "boolean"
  | 3 => "number"
  | 4 => "string"
  | 5 => "null"
  | _ => "unknown"

def cTrue : String := "true"
def cFalse : String := "false"

/-- The libraries the converter calls: `json.Decoder.Token` on a decoder in state `σ`, and
`strconv.FormatFloat(·, 'f', -1, 64)`. -/
structure Env (σ : Type) where
  decoderToken : σ → Except Error JToken × σ
  FormatFloat : float64 → String

/-- The struct `Converter`: the decoder's state, the stack `types` (top last) and `data`. -/
structure Converter (σ : Type) where
  decoder : σ
  types : List ttype
  data : Option String
  deriving DecidableEq, Repr

/-- The function `Tokens`: a fresh converter over a decoder. -/
def Tokens {σ : Type} (j : σ) : Converter σ :=
  { decoder := j, types := [], data := none }

/-- What a call of `Token` gives: `none` for a panic, else the returned pair and the new state. -/
abbrev Result (σ : Type) := Option (Except Error XToken × Converter σ)

/-! ## Operations -/

section Operations

variable {σ : Type}

/-- The method `outputStart`: push `typ`, build the start element. -/
def Converter.outputStart (c : Converter σ) (typ : ttype) (keyName : Option String) :
    XToken × Converter σ :=
  let c1 := { c with types := c.types ++ [typ] }
  let attr : List Attr :=
    match keyName with
    | some k => [{ Name := "name", Value := k }]
    | none => []
  (XToken.StartElement typ.String attr, c1)

/-- The method `outputType`: store `data`, then `outputStart`. -/
def Converter.outputType (c : Converter σ) (typ : ttype) (data : Option String)
    (keyName : Option String) : XToken × Converter σ :=
  Converter.outputStart { c with data := data } typ keyName

/-- The method `outputEnd`: read the top of the stack, pop it, build the end element. On an
empty stack the index expression panics. -/
def Converter.outputEnd (c : Converter σ) : Option (XToken × Converter σ) :=
  match c.types.getLast? with
  | none => none
  | some typ => some (XToken.EndElement typ.String, { c with types := c.types.dropLast })

/-- Wrap a token built by an `output…` method as the return `(token, nil)`. -/
def Result.ret (r : XToken × Converter σ) : Result σ :=
  some (Except.ok r.1, r.2)

/-- One round of the `for` loop of `Token`, with the current `keyName`. A round either returns or,
in the string case that sets `keyName`, goes round again: `again` is the loop from there. -/
def Converter.round (E : Env σ) (again : Option String → Converter σ → Result σ)
    (keyName : Option String) (c : Converter σ) : Result σ :=
  match E.decoderToken c.decoder with
  | (Except.error err, d) => some (Except.error err, { c with decoder := d })
  | (Except.ok token, d) =>
    let c := { c with decoder := d }
    match token with
    | JToken.Delim Delim.objOpen => Result.ret (c.outputStart typObject keyName)
    | JToken.Delim Delim.arrOpen => Result.ret (c.outputStart typArray keyName)
    | JToken.Delim Delim.objClose => (c.outputEnd).map fun r => (Except.ok r.1, r.2)
    | JToken.Delim Delim.arrClose => (c.outputEnd).map fun r => (Except.ok r.1, r.2)
    | JToken.bool b =>
      if b then Result.ret (c.outputType typBool (some cTrue) keyName)
      else Result.ret (c.outputType typBool (some cFalse) keyName)
    | JToken.float64 f =>
      let number := E.FormatFloat f
      Result.ret (c.outputType typNumber (some number) keyName)
    | JToken.Number s => Result.ret (c.outputType typNumber (some s) keyName)
    | JToken.string s =>
      if c.types.getLast? = some typObject ∧ keyName = none then again (some s) c
      else Result.ret (c.outputType typString (some s) keyName)
    | JToken.null => Result.ret (c.outputType typNull none keyName)

/-- The `for` loop of `Token`. A round goes round again only after setting `keyName` from `nil`,
and a round with `keyName` set always returns (`round_some`), so two rounds are the whole loop
and what stands for a third is never run. -/
def Converter.readLoop (E : Env σ) (keyName : Option String) (c : Converter σ) : Result σ :=
  Converter.round E (Converter.round E fun _ _ => none) keyName c

/-- The method `Token`. -/
def Converter.Token (E : Env σ) (c : Converter σ) : Result σ :=
  match c.types.getLast? with
  | some typObject => c.readLoop E none
  | some typArray => c.readLoop E none
  | some _ =>
    match c.data with
    | some s => some (Except.ok (XToken.CharData s), { c with data := none })
    | none => (c.outputEnd).map fun r => (Except.ok r.1, r.2)
  | none => c.readLoop E none

/-- How a run of `Convert` stands: it returned `err` (`none` is `nil`), it panicked, or the
iteration bound was reached with the loop still going. -/
inductive Status where
  | returned (err : Option Error)
  | panicked
  | running
  deriving DecidableEq, Repr

/-- A run of `Convert`: its status, the converter and the encoder as the run left them, and the
tokens passed to `EncodeToken`, in order. -/
structure Run (σ τ : Type) where
  status : Status
  c : Converter σ
  x : τ
  sent : List XToken
  deriving DecidableEq, Repr

/-- The `for` loop of `Convert`, at most `fuel` iterations. A panic in `Token` ends the run; the
converter is then reported as it was before that call. -/
def Convert.loop {τ : Type} (E : Env σ) (EncodeToken : τ → XToken → Option Error × τ) :
    Nat → Converter σ → τ → List XToken → Run σ τ
  | 0, c, x, sent => { status := Status.running, c := c, x := x, sent := sent }
  | fuel + 1, c, x, sent =>
    match c.Token E with
    | none => { status := Status.panicked, c := c, x := x, sent := sent }
    | some (Except.error err, c1) =>
      if err = Error.EOF then { status := Status.returned none, c := c1, x := x, sent := sent }
      else { status := Status.returned (some err), c := c1, x := x, sent := sent }
    | some (Except.ok tk, c1) =>
      match EncodeToken x tk with
      | (some err, x1) =>
        { status := Status.returned (some err), c := c1, x := x1, sent := sent ++ [tk] }
      | (none, x1) => Convert.loop E EncodeToken fuel c1 x1 (sent ++ [tk])

/-- The function `Convert`, its loop bounded by `fuel`. -/
def Convert {τ : Type} (E : Env σ) (EncodeToken : τ → XToken → Option Error × τ) (fuel : Nat)
    (j : σ) (x : τ) : Run σ τ :=
  Convert.loop E EncodeToken fuel { decoder := j, types := [], data := none } x []

end Operations

/-! ## Token sources and sinks used to state the claims -/

/-- A decoder over a finite list of reads still to come: it hands them out in order and
reports `io.EOF` from then on. -/
def listDecoder (rs : List (Except Error JToken)) :
    Except Error JToken × List (Except Error JToken) :=
  match rs with
  | [] => (Except.error Error.EOF, [])
  | r :: rest => (r, rest)

/-- The environment of a list decoder; a `float64` is printed by `fmt`. -/
def listEnv (fmt : float64 → String) : Env (List (Except Error JToken)) :=
  { decoderToken := listDecoder, FormatFloat := fmt }

/-- A sink that accepts every token and keeps them in order. -/
def recorder (x : List XToken) (tk : XToken) : Option Error × List XToken :=
  (none, x ++ [tk])

/-! ## JSON values, their tokens and the reference rendering -/

/-- A JSON value: an object is its members in order, a number is its text. -/
inductive JValue where
  | object (members : List (String × JValue))
  | array (elems : List JValue)
  | bool (b : Bool)
  | number (text : String)
  | string (s : String)
  | null

mutual
/-- The tokens `json.Decoder.Token` (with `UseNumber`) reads from the text of a value. -/
def JValue.tokens : JValue → List JToken
  | JValue.object ms => JToken.Delim Delim.objOpen :: (membersTokens ms ++ [JToken.Delim Delim.objClose])
  | JValue.array es => JToken.Delim Delim.arrOpen :: (elemsTokens es ++ [JToken.Delim Delim.arrClose])
  | JValue.bool b => [JToken.bool b]
  | JValue.number t => [JToken.Number t]
  | JValue.string s => [JToken.string s]
  | JValue.null => [JToken.null]
/-- The tokens of the members of an object: each key as a string token, then the value. -/
def membersTokens : List (String × JValue) → List JToken
  | [] => []
  | (k, v) :: ms => JToken.string k :: (JValue.tokens v ++ membersTokens ms)
/-- The tokens of the elements of an array. -/
def elemsTokens : List JValue → List JToken
  | [] => []
  | v :: es => JValue.tokens v ++ elemsTokens es
end

/-- The attribute list of a start element: `name=k` for a member with key `k`. -/
def nameAttr (key : Option String) : List Attr :=
  match key with
  | some k => [{ Name := "name", Value := k }]
  | none => []

mutual
/-- The reference rendering of a value, `key` being the key it is the member of, if any. -/
def render : Option String → JValue → List XToken
  | key, JValue.object ms =>
    XToken.StartElement "object" (nameAttr key) :: (renderMembers ms ++ [XToken.EndElement "object"])
  | key, JValue.array es =>
    XToken.StartElement "array" (nameAttr key) :: (renderElems es ++ [XToken.EndElement "array"])
  | key, JValue.bool b =>
    [XToken.StartElement "boolean" (nameAttr key), XToken.CharData (if b then "true" else "false"),
      XToken.EndElement "boolean"]
  | key, JValue.number t =>
    [XToken.StartElement "number" (nameAttr key), XToken.CharData t, XToken.EndElement "number"]
  | key, JValue.string s =>
    [XToken.StartElement "string" (nameAttr key), XToken.CharData s, XToken.EndElement "string"]
  | key, JValue.null => [XToken.StartElement "null" (nameAttr key), XToken.EndElement "null"]
/-- The rendering of the members of an object, each with its key. -/
def renderMembers : List (String × JValue) → List XToken
  | [] => []
  | (k, v) :: ms => render (some k) v ++ renderMembers ms
/-- The rendering of the elements of an array, none with a key. -/
def renderElems : List JValue → List XToken
  | [] => []
  | v :: es => render none v ++ renderElems es
end

/-- The sink's state after it took the tokens `tks` one by one from state `x`. -/
def feed {τ : Type} (EncodeToken : τ → XToken → Option Error × τ) (x : τ) : List XToken → τ
  | [] => x
  | tk :: tks => feed EncodeToken (EncodeToken x tk).2 tks

/-- The reads a list decoder holds for a list of tokens, none failing. -/
def reads (ts : List JToken) : List (Except Error JToken) :=
  ts.map Except.ok

/-- The read of the key in front of an object member's value; nothing for other values. -/
def keyReads (key : Option String) : List (Except Error JToken) :=
  match key with
  | some k => [Except.ok (JToken.string k)]
  | none => []

/-- Where a value may come next: a member with a key directly inside an object, a value without
one at top level or directly inside an array. -/
def Expects (key : Option String) (st : List ttype) : Prop :=
  match key with
  | some _ => st.getLast? = some typObject
  | none => st.getLast? = none ∨ st.getLast? = some typArray

/-- From state `c` the converter hands the tokens `tks` to the driver, one per round, and is
then in state `c1`: as many rounds of the loop move the run on by just that. -/
def Emits {σ τ : Type} (E : Env σ) (enc : τ → XToken → Option Error × τ) (c : Converter σ)
    (tks : List XToken) (c1 : Converter σ) : Prop :=
  ∀ (n : Nat) (x : τ) (sent : List XToken),
    Convert.loop E enc (n + tks.length) c x sent
      = Convert.loop E enc n c1 (feed enc x tks) (sent ++ tks)

/-! ## Reading a token stream back as a JSON value -/

/-- An element being read back: its name, the key on its start token, its text if it had any, and
the children read so far, the latest first. -/
structure Frame where
  name : String
  key : Option String
  text : Option String
  children : List (Option String × JValue)

/-- The key on a start token: the value of its one attribute `name`. -/
def keyOf (attr : List Attr) : Option String :=
  match attr with
  | [a] => if a.Name = "name" then some a.Value else none
  | _ => none

/-- The value of an element that is complete. -/
def Frame.value (f : Frame) : Option JValue :=
  if f.name = "object" then
    some (JValue.object (f.children.reverse.map fun p => (p.1.getD "", p.2)))
  else if f.name = "array" then some (JValue.array (f.children.reverse.map Prod.snd))
  else if f.name = "boolean" then
    if f.text = some "true" then some (JValue.bool true)
    else if f.text = some "false" then some (JValue.bool false)
    else none
  else if f.name = "number" then f.text.map JValue.number
  else if f.name = "string" then f.text.map JValue.string
  else if f.name = "null" then some JValue.null
  else none

/-- Read tokens with the element `top` open inside the elements `stack` (innermost first); the
result is the outermost frame once every element under it is closed. -/
def parseTokens : List XToken → Frame → List Frame → Option Frame
  | [], top, [] => some top
  | [], _, _ :: _ => none
  | XToken.StartElement n attr :: tks, top, stack =>
    parseTokens tks { name := n, key := keyOf attr, text := none, children := [] } (top :: stack)
  | XToken.CharData s :: tks, top, stack => parseTokens tks { top with text := some s } stack
  | XToken.EndElement _ :: _, _, [] => none
  | XToken.EndElement n :: tks, top, parent :: stack =>
    if n = top.name then
      match top.value with
      | some v => parseTokens tks { parent with children := (top.key, v) :: parent.children } stack
      | none => none
    else none

/-- Read a token stream back as the one JSON value it is the rendering of. -/
def parseBack (tks : List XToken) : Option JValue :=
  match parseTokens tks { name := "", key := none, text := none, children := [] } [] with
  | some root =>
    match root.children with
    | [(_, v)] => some v
    | _ => none
  | none => none

/-! ## Sequences of calls, and measures on token streams -/

/-- The converter must read to go on: the stack is empty or has a container on top. -/
def Reading {σ : Type} (c : Converter σ) : Prop :=
  c.types.getLast? = none ∨ c.types.getLast? = some typObject ∨ c.types.getLast? = some typArray

/-- A number `k` of calls of `Token` in a row: what each returned, in order, and the state after
the last; `none` when one of them panics. A call that returns an error is a call like any other,
the next one goes on from the state it left. -/
def Converter.calls {σ : Type} (E : Env σ) :
    Nat → Converter σ → Option (List (Except Error XToken) × Converter σ)
  | 0, c => some ([], c)
  | k + 1, c =>
    match c.Token E with
    | none => none
    | some (r, c1) =>
      match Converter.calls E k c1 with
      | none => none
      | some (rs, c2) => some (r :: rs, c2)

/-- The tokens among the returns of a sequence of calls. -/
def emitted (rs : List (Except Error XToken)) : List XToken :=
  rs.filterMap fun r =>
    match r with
    | Except.ok tk => some tk
    | Except.error _ => none

/-- What a token adds to the number of open elements. -/
def XToken.delta : XToken → Int
  | XToken.StartElement _ _ => 1
  | XToken.CharData _ => 0
  | XToken.EndElement _ => -1

/-- The number of start-of-element tokens minus the number of end-of-element tokens. -/
def depth (tks : List XToken) : Int :=
  (tks.map XToken.delta).sum

/-- The sink took every one of the tokens `tks`, passed one by one from state `x`. -/
def Accepted {τ : Type} (EncodeToken : τ → XToken → Option Error × τ) (x : τ) : List XToken → Prop
  | [] => True
  | tk :: tks => (EncodeToken x tk).1 = none ∧ Accepted EncodeToken (EncodeToken x tk).2 tks

/-- The scalar element a JSON token is turned into by the switch in `Token`: its kind and the
text kept for it in `data`; none for a delimiter. -/
def scalarOf {σ : Type} (E : Env σ) : JToken → Option (ttype × Option String)
  | JToken.Delim _ => none
  | JToken.bool b => some (typBool, some (if b then cTrue else cFalse))
  | JToken.float64 f => some (typNumber, some (E.FormatFloat f))
  | JToken.Number s => some (typNumber, some s)
  | JToken.string s => some (typString, some s)
  | JToken.null => some (typNull, none)

/-- What a token does to the list of the names of the open elements, outermost first. -/
def XToken.onOpen (names : List String) : XToken → List String
  | XToken.StartElement n _ => names ++ [n]
  | XToken.CharData _ => names
  | XToken.EndElement _ => names.dropLast

/-- The names of the elements whose start token is in `tks` and whose end token is not,
outermost first. -/
def openNames (tks : List XToken) : List String :=
  tks.foldl XToken.onOpen []

/-- The pending value is there only right after the start token of a boolean, number or string. -/
def Pending {σ : Type} (tks : List XToken) (c : Converter σ) : Prop :=
  ∀ s, c.data = some s → ∃ t attr, c.types.getLast? = some t
    ∧ (t = typBool ∨ t = typNumber ∨ t = typString)
    ∧ tks.getLast? = some (XToken.StartElement t.String attr)

/-- A sink that takes `limit` tokens less those it holds already, and rejects the next. -/
def limited (limit : Nat) (x : List XToken) (tk : XToken) : Option Error × List XToken :=
  if x.length < limit then (none, x ++ [tk]) else (some (Error.other "sink full"), x)

/-- The six element names. -/
def elementNames : List String :=
  ["object", "array", "boolean", "number", "string", "null"]

/-- A start or end token has one of the six element names. -/
def XToken.Named : XToken → Prop
  | XToken.StartElement n _ => n ∈ elementNames
  | XToken.CharData _ => True
  | XToken.EndElement n => n ∈ elementNames

/-- The same token source with a count of the reads made of it. -/
def counting {σ : Type} (E : Env σ) : Env (σ × Nat) :=
  { decoderToken := fun s => ((E.decoderToken s.1).1, ((E.decoderToken s.1).2, s.2 + 1)),
    FormatFloat := E.FormatFloat }

/-- A converter over a counting source without the count. -/
def Converter.uncount {σ : Type} (c : Converter (σ × Nat)) : Converter σ :=
  { decoder := c.decoder.1, types := c.types, data := c.data }

/-! ## Measures on JSON token streams and on the stack -/

/-- What a JSON token adds to the number of open containers. -/
def JToken.jdelta : JToken → Int
  | JToken.Delim Delim.objOpen => 1
  | JToken.Delim Delim.arrOpen => 1
  | JToken.Delim Delim.objClose => -1
  | JToken.Delim Delim.arrClose => -1
  | _ => 0

/-- The number of containers opened in `ts` less the number closed. -/
def jdepth (ts : List JToken) : Int :=
  (ts.map JToken.jdelta).sum

mutual
/-- How deep containers are nested in a value; 0 for a scalar. -/
def JValue.nesting : JValue → Nat
  | JValue.object ms => membersNesting ms + 1
  | JValue.array es => elemsNesting es + 1
  | JValue.bool _ => 0
  | JValue.number _ => 0
  | JValue.string _ => 0
  | JValue.null => 0
/-- The deepest nesting among the members of an object. -/
def membersNesting : List (String × JValue) → Nat
  | [] => 0
  | (_, v) :: ms => max (JValue.nesting v) (membersNesting ms)
/-- The deepest nesting among the elements of an array, or among top-level values. -/
def elemsNesting : List JValue → Nat
  | [] => 0
  | v :: es => max (JValue.nesting v) (elemsNesting es)
end

/-- One if a scalar kind is on top of the stack, the kind of an element that is started and not
yet ended whose content is text; else zero. -/
def scalarTop (st : List ttype) : Int :=
  match st.getLast? with
  | some t => if 2 ≤ t then 1 else 0
  | none => 0

/-- Every kind under the top of the stack is a container. -/
def Below (st : List ttype) : Prop :=
  ∀ t ∈ st.dropLast, t ≤ 1

/-- The state of a converter over the list decoder of the tokens `p` that has read the tokens
`q` of them: the rest is what the decoder still holds, every kind under the top of the stack is a
container, and the depth of the stack is the number of containers open in `q`, and one more
with a scalar kind on top. -/
def Consumed (p : List JToken) (c : Converter (List (Except Error JToken))) (q : List JToken) :
    Prop :=
  ∃ rest, p = q ++ rest ∧ c.decoder = reads rest ∧ Below c.types
    ∧ (c.types.length : Int) = jdepth q + scalarTop c.types

/-! ## Lemmas on runs of the driver loop -/

section Runs

variable {σ τ : Type}

theorem feed_append (enc : τ → XToken → Option Error × τ) (x : τ) (a b : List XToken) :
    feed enc x (a ++ b) = feed enc (feed enc x a) b := by
  induction a generalizing x with
  | nil => rfl
  | cons t a ih => simp [feed, ih]

/-- One round of the driver loop that passes a token on to an accepting sink. -/
theorem loop_step (E : Env σ) (enc : τ → XToken → Option Error × τ) {c c1 : Converter σ}
    {tk : XToken} (h : c.Token E = some (Except.ok tk, c1)) (x : τ) (hx : (enc x tk).1 = none)
    (sent : List XToken) (n : Nat) :
    Convert.loop E enc (n + 1) c x sent = Convert.loop E enc n c1 (enc x tk).2 (sent ++ [tk]) := by
  rw [Convert.loop, h]
  rcases hq : enc x tk with ⟨e, x1⟩
  rw [hq] at hx
  simp only at hx
  subst hx
  simp only [hq]

theorem Emits.nil (E : Env σ) (enc : τ → XToken → Option Error × τ) (c : Converter σ) :
    Emits E enc c [] c := by
  intro n x sent
  simp [feed]

theorem Emits.one (E : Env σ) (enc : τ → XToken → Option Error × τ)
    (hacc : ∀ x tk, (enc x tk).1 = none) {c c1 : Converter σ} {tk : XToken}
    (h : c.Token E = some (Except.ok tk, c1)) : Emits E enc c [tk] c1 := by
  intro n x sent
  simpa [feed] using loop_step E enc h x (hacc x tk) sent n

theorem Emits.append {E : Env σ} {enc : τ → XToken → Option Error × τ} {c c1 c2 : Converter σ}
    {a b : List XToken} (h1 : Emits E enc c a c1) (h2 : Emits E enc c1 b c2) :
    Emits E enc c (a ++ b) c2 := by
  intro n x sent
  have e : n + (a ++ b).length = (n + b.length) + a.length := by
    simp [List.length_append]; omega
  rw [e, h1, h2, feed_append, List.append_assoc]

theorem Emits.cons {E : Env σ} {enc : τ → XToken → Option Error × τ}
    (hacc : ∀ x tk, (enc x tk).1 = none) {c c1 c2 : Converter σ}
    {tk : XToken} {b : List XToken} (h1 : c.Token E = some (Except.ok tk, c1))
    (h2 : Emits E enc c1 b c2) : Emits E enc c (tk :: b) c2 :=
  Emits.append (Emits.one E enc hacc h1) h2

/-- A scalar element that has been started is finished in two rounds: its text, its end. -/
theorem Emits.scalar_tail (E : Env σ) (enc : τ → XToken → Option Error × τ)
    (hacc : ∀ x tk, (enc x tk).1 = none) (d : σ) (st : List ttype) (typ : ttype)
    (htyp : typ ≠ 0 ∧ typ ≠ 1) (s : String) :
    Emits E enc { decoder := d, types := st ++ [typ], data := some s }
      [XToken.CharData s, XToken.EndElement typ.String]
      { decoder := d, types := st, data := none } := by
  obtain ⟨h0, h1⟩ := htyp
  have h2 : Emits E enc { decoder := d, types := st ++ [typ], data := none }
      [XToken.EndElement typ.String] { decoder := d, types := st, data := none } :=
    Emits.one E enc hacc ?_
  refine Emits.cons hacc ?_ h2
  · match typ, h0, h1 with
    | n + 2, _, _ => simp [Converter.Token]
  · match typ, h0, h1 with
    | n + 2, _, _ => simp [Converter.Token, Converter.outputEnd]

/-- A started `null` element is finished in one round. -/
theorem Emits.null_tail (E : Env σ) (enc : τ → XToken → Option Error × τ)
    (hacc : ∀ x tk, (enc x tk).1 = none) (d : σ) (st : List ttype) :
    Emits E enc { decoder := d, types := st ++ [typNull], data := none }
      [XToken.EndElement "null"] { decoder := d, types := st, data := none } := by
  refine Emits.one E enc hacc ?_
  simp [Converter.Token, Converter.outputEnd, ttype.String]

/-- The first round on a value: the start element, with the key read before it as attribute. -/
theorem Token_open (fmt : float64 → String) (key : Option String) (st : List ttype)
    (h : Expects key st) (d : Delim) (typ : ttype)
    (hd : (d = Delim.objOpen ∧ typ = typObject) ∨ (d = Delim.arrOpen ∧ typ = typArray))
    (rest : List (Except Error JToken)) :
    Converter.Token (listEnv fmt)
        { decoder := keyReads key ++ Except.ok (JToken.Delim d) :: rest, types := st, data := none }
      = some (Except.ok (XToken.StartElement typ.String (nameAttr key)),
          { decoder := rest, types := st ++ [typ], data := none }) := by
  cases key with
  | some k =>
    simp only [Expects] at h
    rcases hd with ⟨rfl, rfl⟩ | ⟨rfl, rfl⟩ <;>
      simp [Converter.Token, Converter.readLoop, Converter.round, listEnv, listDecoder, keyReads, h, Result.ret,
        Converter.outputStart, nameAttr]
  | none =>
    simp only [Expects] at h
    rcases h with h | h <;> rcases hd with ⟨rfl, rfl⟩ | ⟨rfl, rfl⟩ <;>
      simp [Converter.Token, Converter.readLoop, Converter.round, listEnv, listDecoder, keyReads, h, Result.ret,
        Converter.outputStart, nameAttr]

/-- The first round on a scalar value: its start element, its text kept in `data`. -/
theorem Token_scalar (fmt : float64 → String) (key : Option String) (st : List ttype)
    (h : Expects key st) (t : JToken) (typ : ttype) (data : Option String)
    (ht : (∃ b, t = JToken.bool b ∧ typ = typBool ∧ data = some (if b then "true" else "false"))
      ∨ (∃ s, t = JToken.Number s ∧ typ = typNumber ∧ data = some s)
      ∨ (∃ s, t = JToken.string s ∧ typ = typString ∧ data = some s)
      ∨ (t = JToken.null ∧ typ = typNull ∧ data = none))
    (rest : List (Except Error JToken)) :
    Converter.Token (listEnv fmt)
        { decoder := keyReads key ++ Except.ok t :: rest, types := st, data := none }
      = some (Except.ok (XToken.StartElement typ.String (nameAttr key)),
          { decoder := rest, types := st ++ [typ], data := data }) := by
  cases key with
  | some k =>
    simp only [Expects] at h
    rcases ht with ⟨b, rfl, rfl, rfl⟩ | ⟨s, rfl, rfl, rfl⟩ | ⟨s, rfl, rfl, rfl⟩ | ⟨rfl, rfl, rfl⟩
    · cases b <;>
        simp [Converter.Token, Converter.readLoop, Converter.round, listEnv, listDecoder, keyReads,
          h, Result.ret, Converter.outputStart, Converter.outputType, nameAttr, cTrue, cFalse]
    all_goals
      simp [Converter.Token, Converter.readLoop, Converter.round, listEnv, listDecoder, keyReads,
        h, Result.ret, Converter.outputStart, Converter.outputType, nameAttr]
  | none =>
    simp only [Expects] at h
    rcases ht with ⟨b, rfl, rfl, rfl⟩ | ⟨s, rfl, rfl, rfl⟩ | ⟨s, rfl, rfl, rfl⟩ | ⟨rfl, rfl, rfl⟩
    · cases b <;> rcases h with h | h <;>
        simp [Converter.Token, Converter.readLoop, Converter.round, listEnv, listDecoder, keyReads,
          h, Result.ret, Converter.outputStart, Converter.outputType, nameAttr, cTrue, cFalse]
    all_goals
      rcases h with h | h <;>
      simp [Converter.Token, Converter.readLoop, Converter.round, listEnv, listDecoder, keyReads,
        h, Result.ret, Converter.outputStart, Converter.outputType, nameAttr]

/-- The round on the close delimiter of the container on top of the stack. -/
theorem Token_close (fmt : float64 → String) (st : List ttype) (d : Delim) (typ : ttype)
    (hd : (d = Delim.objClose ∨ d = Delim.arrClose) ∧ (typ = typObject ∨ typ = typArray))
    (rest : List (Except Error JToken)) :
    Converter.Token (listEnv fmt)
        { decoder := Except.ok (JToken.Delim d) :: rest, types := st ++ [typ], data := none }
      = some (Except.ok (XToken.EndElement typ.String),
          { decoder := rest, types := st, data := none }) := by
  rcases hd with ⟨rfl | rfl, rfl | rfl⟩ <;>
    simp [Converter.Token, Converter.readLoop, Converter.round, listEnv, listDecoder,
      Converter.outputEnd]

theorem reads_append (a b : List JToken) : reads (a ++ b) = reads a ++ reads b := by
  simp [reads]

theorem reads_cons (t : JToken) (a : List JToken) : reads (t :: a) = Except.ok t :: reads a := rfl

theorem Expects.elem_of_array (st : List ttype) : Expects none (st ++ [typArray]) := by
  simp [Expects]

theorem Expects.member_of_object (k : String) (st : List ttype) :
    Expects (some k) (st ++ [typObject]) := by
  simp [Expects]

mutual
/-- Over the tokens of a value, where a value may come, the converter hands on its rendering
and leaves the stack as it found it. -/
theorem emits_value (fmt : float64 → String) (enc : τ → XToken → Option Error × τ)
    (hacc : ∀ x tk, (enc x tk).1 = none) :
    (v : JValue) → ∀ (key : Option String) (st : List ttype) (rest : List (Except Error JToken)),
      Expects key st →
      Emits (listEnv fmt) enc
        { decoder := keyReads key ++ (reads v.tokens ++ rest), types := st, data := none }
        (render key v) { decoder := rest, types := st, data := none }
  | JValue.object ms => by
    intro key st rest h
    simp only [JValue.tokens, render, reads_cons, reads_append, List.cons_append,
      List.append_assoc, List.nil_append]
    refine Emits.cons hacc (Token_open fmt key st h Delim.objOpen typObject (Or.inl ⟨rfl, rfl⟩) _) ?_
    refine Emits.append (emits_members fmt enc hacc ms st _) ?_
    exact Emits.one _ enc hacc (Token_close fmt st Delim.objClose typObject ⟨Or.inl rfl, Or.inl rfl⟩ rest)
  | JValue.array es => by
    intro key st rest h
    simp only [JValue.tokens, render, reads_cons, reads_append, List.cons_append,
      List.append_assoc, List.nil_append]
    refine Emits.cons hacc (Token_open fmt key st h Delim.arrOpen typArray (Or.inr ⟨rfl, rfl⟩) _) ?_
    refine Emits.append (emits_elems fmt enc hacc es (st ++ [typArray]) _ (Expects.elem_of_array st)) ?_
    exact Emits.one _ enc hacc (Token_close fmt st Delim.arrClose typArray ⟨Or.inr rfl, Or.inr rfl⟩ rest)
  | JValue.bool b => by
    intro key st rest h
    simp only [JValue.tokens, render, reads_cons, reads, List.map_nil, List.cons_append,
      List.nil_append]
    refine Emits.cons hacc (Token_scalar fmt key st h (JToken.bool b) typBool _
      (Or.inl ⟨b, rfl, rfl, rfl⟩) rest) ?_
    exact Emits.scalar_tail _ enc hacc rest st typBool (by decide) _
  | JValue.number t => by
    intro key st rest h
    simp only [JValue.tokens, render, reads_cons, reads, List.map_nil, List.cons_append,
      List.nil_append]
    refine Emits.cons hacc (Token_scalar fmt key st h (JToken.Number t) typNumber _
      (Or.inr (Or.inl ⟨t, rfl, rfl, rfl⟩)) rest) ?_
    exact Emits.scalar_tail _ enc hacc rest st typNumber (by decide) _
  | JValue.string s => by
    intro key st rest h
    simp only [JValue.tokens, render, reads_cons, reads, List.map_nil, List.cons_append,
      List.nil_append]
    refine Emits.cons hacc (Token_scalar fmt key st h (JToken.string s) typString _
      (Or.inr (Or.inr (Or.inl ⟨s, rfl, rfl, rfl⟩))) rest) ?_
    exact Emits.scalar_tail _ enc hacc rest st typString (by decide) _
  | JValue.null => by
    intro key st rest h
    simp only [JValue.tokens, render, reads_cons, reads, List.map_nil, List.cons_append,
      List.nil_append]
    refine Emits.cons hacc (Token_scalar fmt key st h JToken.null typNull _
      (Or.inr (Or.inr (Or.inr ⟨rfl, rfl, rfl⟩))) rest) ?_
    exact Emits.null_tail _ enc hacc rest st
/-- The members of an object, directly inside it. -/
theorem emits_members (fmt : float64 → String) (enc : τ → XToken → Option Error × τ)
    (hacc : ∀ x tk, (enc x tk).1 = none) :
    (ms : List (String × JValue)) → ∀ (st : List ttype) (rest : List (Except Error JToken)),
      Emits (listEnv fmt) enc
        { decoder := reads (membersTokens ms) ++ rest, types := st ++ [typObject], data := none }
        (renderMembers ms) { decoder := rest, types := st ++ [typObject], data := none }
  | [] => by
    intro st rest
    simpa [membersTokens, renderMembers, reads] using Emits.nil _ enc _
  | (k, v) :: ms => by
    intro st rest
    simp only [membersTokens, renderMembers, reads_cons, reads_append, List.cons_append,
      List.append_assoc]
    have h1 := emits_value fmt enc hacc v (some k) (st ++ [typObject])
      (reads (membersTokens ms) ++ rest) (Expects.member_of_object k st)
    simp only [keyReads, List.cons_append, List.nil_append] at h1
    exact Emits.append h1 (emits_members fmt enc hacc ms st rest)
/-- The elements of an array, or values at top level. -/
theorem emits_elems (fmt : float64 → String) (enc : τ → XToken → Option Error × τ)
    (hacc : ∀ x tk, (enc x tk).1 = none) :
    (es : List JValue) → ∀ (st : List ttype) (rest : List (Except Error JToken)),
      Expects none st →
      Emits (listEnv fmt) enc
        { decoder := reads (elemsTokens es) ++ rest, types := st, data := none }
        (renderElems es) { decoder := rest, types := st, data := none }
  | [] => by
    intro st rest _
    simpa [elemsTokens, renderElems, reads] using Emits.nil _ enc _
  | v :: es => by
    intro st rest h
    simp only [elemsTokens, renderElems, reads_append, List.append_assoc]
    have h1 := emits_value fmt enc hacc v none st (reads (elemsTokens es) ++ rest) h
    simp only [keyReads, List.nil_append] at h1
    exact Emits.append h1 (emits_elems fmt enc hacc es st rest h)
end

mutual
theorem render_length_le (key : Option String) :
    (v : JValue) → (render key v).length ≤ 3 * v.tokens.length
  | JValue.object ms => by
    have := renderMembers_length_le ms
    simp only [render, JValue.tokens, List.length_cons, List.length_append, List.length_nil]
    omega
  | JValue.array es => by
    have := renderElems_length_le es
    simp only [render, JValue.tokens, List.length_cons, List.length_append, List.length_nil]
    omega
  | JValue.bool _ => by simp [render, JValue.tokens]
  | JValue.number _ => by simp [render, JValue.tokens]
  | JValue.string _ => by simp [render, JValue.tokens]
  | JValue.null => by simp [render, JValue.tokens]
theorem renderMembers_length_le :
    (ms : List (String × JValue)) → (renderMembers ms).length ≤ 3 * (membersTokens ms).length
  | [] => by simp [renderMembers, membersTokens]
  | (k, v) :: ms => by
    have h1 := render_length_le (some k) v
    have h2 := renderMembers_length_le ms
    simp only [renderMembers, membersTokens, List.length_cons, List.length_append]
    omega
theorem renderElems_length_le :
    (es : List JValue) → (renderElems es).length ≤ 3 * (elemsTokens es).length
  | [] => by simp [renderElems, elemsTokens]
  | v :: es => by
    have h1 := render_length_le none v
    have h2 := renderElems_length_le es
    simp only [renderElems, elemsTokens, List.length_append]
    omega
end

/-- The driver loop on a decoder at its end, between top-level values: it returns `nil`. -/
theorem loop_at_end (fmt : float64 → String) (enc : τ → XToken → Option Error × τ) (n : Nat)
    (x : τ) (sent : List XToken) :
    Convert.loop (listEnv fmt) enc (n + 1) { decoder := [], types := [], data := none } x sent
      = { status := Status.returned none, c := { decoder := [], types := [], data := none },
          x := x, sent := sent } := by
  simp [Convert.loop, Converter.Token, Converter.readLoop, Converter.round, listEnv, listDecoder]

/-- The whole run over the tokens of a sequence of values, with any bound that lets it finish. -/
theorem convert_values (fmt : float64 → String) (enc : τ → XToken → Option Error × τ)
    (hacc : ∀ x tk, (enc x tk).1 = none) (vs : List JValue) (x : τ) (fuel : Nat)
    (hfuel : (renderElems vs).length < fuel) :
    Convert (listEnv fmt) enc fuel (reads (elemsTokens vs)) x
      = { status := Status.returned none, c := { decoder := [], types := [], data := none },
          x := feed enc x (renderElems vs), sent := renderElems vs } := by
  obtain ⟨n, rfl⟩ : ∃ n, fuel = (n + 1) + (renderElems vs).length := ⟨fuel - (renderElems vs).length - 1, by omega⟩
  have h := emits_elems fmt enc hacc vs [] [] (Or.inl rfl)
  simp only [List.append_nil] at h
  rw [Convert, h, loop_at_end]
  simp

end Runs

/-! ## Lemmas on single calls of `Token` -/

section Calls

variable {σ : Type}

/-- What a round that returns a token did: it started an element, or it closed the container on
top of the stack, or it took a key inside an object and left the rest to the next round. -/
theorem round_ok_cases (E : Env σ) (again : Option String → Converter σ → Result σ)
    (keyName : Option String) (c c1 : Converter σ) (tk : XToken)
    (h : Converter.round E again keyName c = some (Except.ok tk, c1)) :
    (∃ typ tok, (E.decoderToken c.decoder).1 = Except.ok tok
        ∧ (keyName = none → c.types.getLast? = some typObject → ∀ s, tok ≠ JToken.string s)
        ∧ tk = XToken.StartElement typ.String (nameAttr keyName)
        ∧ c1 = { decoder := (E.decoderToken c.decoder).2, types := c.types ++ [typ], data := c1.data }
        ∧ (((tok = JToken.Delim Delim.objOpen ∧ typ = typObject
              ∨ tok = JToken.Delim Delim.arrOpen ∧ typ = typArray) ∧ c1.data = c.data)
            ∨ scalarOf E tok = some (typ, c1.data)))
    ∨ (∃ t, c.types.getLast? = some t
        ∧ ((E.decoderToken c.decoder).1 = Except.ok (JToken.Delim Delim.objClose)
            ∨ (E.decoderToken c.decoder).1 = Except.ok (JToken.Delim Delim.arrClose))
        ∧ tk = XToken.EndElement t.String
        ∧ c1 = { decoder := (E.decoderToken c.decoder).2, types := c.types.dropLast,
                 data := c.data })
    ∨ (∃ s, keyName = none ∧ c.types.getLast? = some typObject
        ∧ (E.decoderToken c.decoder).1 = Except.ok (JToken.string s)
        ∧ again (some s) { c with decoder := (E.decoderToken c.decoder).2 }
            = some (Except.ok tk, c1)) := by
  unfold Converter.round at h
  rcases hdec : E.decoderToken c.decoder with ⟨r, d⟩
  rw [hdec] at h
  cases r with
  | error e => simp at h
  | ok tok =>
    cases tok with
    | Delim dl =>
      cases dl with
      | objOpen =>
        simp only [Result.ret, Converter.outputStart, Option.some.injEq, Prod.mk.injEq,
          Except.ok.injEq] at h
        obtain ⟨rfl, rfl⟩ := h
        exact Or.inl ⟨0, _, rfl, (by intro _ _ s hs; cases hs), rfl, rfl,
          Or.inl ⟨Or.inl ⟨rfl, rfl⟩, rfl⟩⟩
      | arrOpen =>
        simp only [Result.ret, Converter.outputStart, Option.some.injEq, Prod.mk.injEq,
          Except.ok.injEq] at h
        obtain ⟨rfl, rfl⟩ := h
        exact Or.inl ⟨1, _, rfl, (by intro _ _ s hs; cases hs), rfl, rfl,
          Or.inl ⟨Or.inr ⟨rfl, rfl⟩, rfl⟩⟩
      | objClose =>
        rcases hl : c.types.getLast? with _ | t
        · simp [Converter.outputEnd, hl] at h
        · simp only [Converter.outputEnd, hl, Option.map_some', Option.some.injEq, Prod.mk.injEq,
            Except.ok.injEq] at h
          obtain ⟨rfl, rfl⟩ := h
          exact Or.inr (Or.inl ⟨t, rfl, Or.inl rfl, rfl, rfl⟩)
      | arrClose =>
        rcases hl : c.types.getLast? with _ | t
        · simp [Converter.outputEnd, hl] at h
        · simp only [Converter.outputEnd, hl, Option.map_some', Option.some.injEq, Prod.mk.injEq,
            Except.ok.injEq] at h
          obtain ⟨rfl, rfl⟩ := h
          exact Or.inr (Or.inl ⟨t, rfl, Or.inr rfl, rfl, rfl⟩)
    | bool b =>
      cases b <;>
      · simp only [Result.ret, Converter.outputStart, Converter.outputType, Option.some.injEq,
          Prod.mk.injEq, Except.ok.injEq, if_true, if_false, Bool.false_eq_true] at h
        obtain ⟨rfl, rfl⟩ := h
        exact Or.inl ⟨2, _, rfl, (by intro _ _ s hs; cases hs), rfl, rfl, Or.inr rfl⟩
    | float64 f =>
      simp only [Result.ret, Converter.outputStart, Converter.outputType, Option.some.injEq,
        Prod.mk.injEq, Except.ok.injEq] at h
      obtain ⟨rfl, rfl⟩ := h
      exact Or.inl ⟨3, _, rfl, (by intro _ _ s hs; cases hs), rfl, rfl, Or.inr rfl⟩
    | Number s =>
      simp only [Result.ret, Converter.outputStart, Converter.outputType, Option.some.injEq,
        Prod.mk.injEq, Except.ok.injEq] at h
      obtain ⟨rfl, rfl⟩ := h
      exact Or.inl ⟨3, _, rfl, (by intro _ _ s hs; cases hs), rfl, rfl, Or.inr rfl⟩
    | string s =>
      simp only at h
      split at h
      · rename_i hk
        exact Or.inr (Or.inr ⟨s, hk.2, hk.1, rfl, h⟩)
      · rename_i hk
        simp only [Result.ret, Converter.outputStart, Converter.outputType, Option.some.injEq,
          Prod.mk.injEq, Except.ok.injEq] at h
        obtain ⟨rfl, rfl⟩ := h
        exact Or.inl ⟨4, _, rfl, fun hn ho _ _ => hk ⟨ho, hn⟩, rfl, rfl, Or.inr rfl⟩
    | null =>
      simp only [Result.ret, Converter.outputStart, Converter.outputType, Option.some.injEq,
        Prod.mk.injEq, Except.ok.injEq] at h
      obtain ⟨rfl, rfl⟩ := h
      exact Or.inl ⟨5, _, rfl, (by intro _ _ s hs; cases hs), rfl, rfl, Or.inr rfl⟩

/-- A round entered with `keyName` set returns whatever stands for the round after it. -/
theorem round_some (E : Env σ) (again again2 : Option String → Converter σ → Result σ)
    (k : String) (c : Converter σ) :
    Converter.round E again (some k) c = Converter.round E again2 (some k) c := by
  unfold Converter.round
  rcases E.decoderToken c.decoder with ⟨r, d⟩
  cases r with
  | error e => rfl
  | ok tok => cases tok <;> simp

/-- The kind an element that `Token` starts can have, and what that says of its pending text. -/
theorem started_kind (E : Env σ) (tok : JToken) (typ : ttype) (data data0 : Option String)
    (h : ((tok = JToken.Delim Delim.objOpen ∧ typ = typObject
          ∨ tok = JToken.Delim Delim.arrOpen ∧ typ = typArray) ∧ data = data0)
        ∨ scalarOf E tok = some (typ, data)) :
    (typ ≤ 1 ∧ data = data0) ∨ (2 ≤ typ ∧ typ ≤ 4 ∧ data.isSome) ∨ (typ = 5 ∧ data = none) := by
  rcases h with ⟨⟨_, rfl⟩ | ⟨_, rfl⟩, hd⟩ | h
  · exact Or.inl ⟨by decide, hd⟩
  · exact Or.inl ⟨by decide, hd⟩
  · cases tok with
    | Delim dl => simp [scalarOf] at h
    | bool b =>
      simp only [scalarOf, Option.some.injEq, Prod.mk.injEq] at h
      obtain ⟨rfl, rfl⟩ := h
      exact Or.inr (Or.inl ⟨by decide, by decide, rfl⟩)
    | float64 f =>
      simp only [scalarOf, Option.some.injEq, Prod.mk.injEq] at h
      obtain ⟨rfl, rfl⟩ := h
      exact Or.inr (Or.inl ⟨by decide, by decide, rfl⟩)
    | Number s =>
      simp only [scalarOf, Option.some.injEq, Prod.mk.injEq] at h
      obtain ⟨rfl, rfl⟩ := h
      exact Or.inr (Or.inl ⟨by decide, by decide, rfl⟩)
    | string s =>
      simp only [scalarOf, Option.some.injEq, Prod.mk.injEq] at h
      obtain ⟨rfl, rfl⟩ := h
      exact Or.inr (Or.inl ⟨by decide, by decide, rfl⟩)
    | null =>
      simp only [scalarOf, Option.some.injEq, Prod.mk.injEq] at h
      obtain ⟨rfl, rfl⟩ := h
      exact Or.inr (Or.inr ⟨rfl, rfl⟩)

/-- What a call of `Token` that returns a token did. In the case of a start element, `tok` is
the JSON token it was made from: the first one read, or the one read after the key. -/
theorem Token_ok_cases (E : Env σ) (c c1 : Converter σ) (tk : XToken)
    (h : c.Token E = some (Except.ok tk, c1)) :
    (∃ t s, c.types.getLast? = some t ∧ 2 ≤ t ∧ c.data = some s ∧ tk = XToken.CharData s
        ∧ c1 = { c with data := none })
    ∨ (∃ t, c.types.getLast? = some t ∧ 2 ≤ t ∧ c.data = none ∧ tk = XToken.EndElement t.String
        ∧ c1 = { c with types := c.types.dropLast })
    ∨ (Reading c ∧ ∃ typ key tok, tk = XToken.StartElement typ.String (nameAttr key)
        ∧ c1.types = c.types ++ [typ]
        ∧ ((key = none ∧ (E.decoderToken c.decoder).1 = Except.ok tok)
            ∨ (key ≠ none
                ∧ (E.decoderToken (E.decoderToken c.decoder).2).1 = Except.ok tok))
        ∧ (((tok = JToken.Delim Delim.objOpen ∧ typ = typObject
              ∨ tok = JToken.Delim Delim.arrOpen ∧ typ = typArray) ∧ c1.data = c.data)
            ∨ scalarOf E tok = some (typ, c1.data))
        ∧ ∀ k, key = some k ↔ (c.types.getLast? = some typObject
            ∧ (E.decoderToken c.decoder).1 = Except.ok (JToken.string k)))
    ∨ (Reading c ∧ ∃ t, c.types.getLast? = some t ∧ t ≤ 1 ∧ tk = XToken.EndElement t.String
        ∧ c1.types = c.types.dropLast ∧ c1.data = c.data) := by
  have hread : Reading c → c.readLoop E none = some (Except.ok tk, c1) →
      (Reading c ∧ ∃ typ key tok, tk = XToken.StartElement typ.String (nameAttr key)
        ∧ c1.types = c.types ++ [typ]
        ∧ ((key = none ∧ (E.decoderToken c.decoder).1 = Except.ok tok)
            ∨ (key ≠ none
                ∧ (E.decoderToken (E.decoderToken c.decoder).2).1 = Except.ok tok))
        ∧ (((tok = JToken.Delim Delim.objOpen ∧ typ = typObject
              ∨ tok = JToken.Delim Delim.arrOpen ∧ typ = typArray) ∧ c1.data = c.data)
            ∨ scalarOf E tok = some (typ, c1.data))
        ∧ ∀ k, key = some k ↔ (c.types.getLast? = some typObject
            ∧ (E.decoderToken c.decoder).1 = Except.ok (JToken.string k)))
      ∨ (Reading c ∧ ∃ t, c.types.getLast? = some t ∧ t ≤ 1 ∧ tk = XToken.EndElement t.String
        ∧ c1.types = c.types.dropLast ∧ c1.data = c.data) := by
    intro hr h
    have hle : ∀ t, c.types.getLast? = some t → t ≤ 1 := by
      intro t ht
      rcases hr with h0 | h0 | h0 <;> rw [h0] at ht <;> cases ht <;> decide
    rcases round_ok_cases E _ none c c1 tk h with
      ⟨typ, tok, hd, hnk, rfl, hc1, hdata⟩ | ⟨t, ht, _, rfl, hc1⟩ | ⟨s, _, ho, hd, h2⟩
    · refine Or.inl ⟨hr, typ, none, tok, rfl, by rw [hc1], Or.inl ⟨rfl, hd⟩, hdata, ?_⟩
      intro k
      constructor
      · intro hk; cases hk
      · rintro ⟨ho, hs⟩
        rw [hd] at hs
        exact absurd (Except.ok.inj hs) (hnk rfl ho k)
    · exact Or.inr ⟨hr, t, ht, hle t ht, rfl, by rw [hc1], by rw [hc1]⟩
    · rcases round_ok_cases E _ (some s) _ c1 tk h2 with
        ⟨typ, tok, hd2, _, rfl, hc1, hdata⟩ | ⟨t, ht, _, rfl, hc1⟩ | ⟨_, hn, _⟩
      · refine Or.inl ⟨hr, typ, some s, tok, rfl, by rw [hc1],
          Or.inr ⟨by simp, hd2⟩, hdata, ?_⟩
        intro k
        constructor
        · intro hk
          cases hk
          exact ⟨ho, hd⟩
        · rintro ⟨_, hs⟩
          rw [hd] at hs
          cases hs
          rfl
      · exact Or.inr ⟨hr, t, ht, hle t ht, rfl, by rw [hc1], by rw [hc1]⟩
      · cases hn
  unfold Converter.Token at h
  obtain ⟨o, hl⟩ : ∃ o, c.types.getLast? = o := ⟨_, rfl⟩
  obtain ⟨od, hd⟩ : ∃ od, c.data = od := ⟨_, rfl⟩
  rw [hl] at h
  rcases o with _ | _ | _ | n
  · exact Or.inr (Or.inr (hread (Or.inl hl) h))
  · exact Or.inr (Or.inr (hread (Or.inr (Or.inl hl)) h))
  · exact Or.inr (Or.inr (hread (Or.inr (Or.inr hl)) h))
  · simp only [hd] at h
    rcases od with _ | s
    · simp only [Converter.outputEnd, hl, Option.map_some', Option.some.injEq, Prod.mk.injEq,
        Except.ok.injEq] at h
      obtain ⟨rfl, rfl⟩ := h
      exact Or.inr (Or.inl ⟨n + 2, hl, Nat.le_add_left 2 n, hd, rfl, rfl⟩)
    · simp only [Option.some.injEq, Prod.mk.injEq, Except.ok.injEq] at h
      obtain ⟨rfl, rfl⟩ := h
      exact Or.inl ⟨n + 2, s, hl, Nat.le_add_left 2 n, hd, rfl, rfl⟩

/-- A call of `Token` that returns an error leaves the stack and the pending value alone. -/
theorem Token_error_frame (E : Env σ) (c c1 : Converter σ) (e : Error)
    (h : c.Token E = some (Except.error e, c1)) :
    Reading c ∧ c1.types = c.types ∧ c1.data = c.data := by
  have hround : ∀ (again : Option String → Converter σ → Result σ) (keyName : Option String)
      (c c1 : Converter σ),
      (∀ k c2 c3, again k c2 = some (Except.error e, c3) →
        c3.types = c2.types ∧ c3.data = c2.data) →
      Converter.round E again keyName c = some (Except.error e, c1) →
      c1.types = c.types ∧ c1.data = c.data := by
    intro again keyName c c1 hag h
    unfold Converter.round at h
    rcases hdec : E.decoderToken c.decoder with ⟨r, d⟩
    rw [hdec] at h
    cases r with
    | error e1 =>
      simp only [Option.some.injEq, Prod.mk.injEq, Except.error.injEq] at h
      obtain ⟨_, rfl⟩ := h
      exact ⟨rfl, rfl⟩
    | ok tok =>
      cases tok with
      | Delim dl =>
        cases dl <;> simp [Result.ret, Converter.outputEnd] at h
      | bool b => cases b <;> simp [Result.ret] at h
      | float64 f => simp [Result.ret] at h
      | Number s => simp [Result.ret] at h
      | string s =>
        simp only at h
        split at h
        · have h3 := hag _ _ _ h
          exact h3
        · simp [Result.ret] at h
      | null => simp [Result.ret] at h
  have hread : c.readLoop E none = some (Except.error e, c1) →
      c1.types = c.types ∧ c1.data = c.data := by
    intro h
    refine hround _ none c c1 ?_ h
    intro k c2 c3 h2
    exact hround _ k c2 c3 (fun _ _ _ h3 => by simp at h3) h2
  unfold Converter.Token at h
  obtain ⟨o, hl⟩ : ∃ o, c.types.getLast? = o := ⟨_, rfl⟩
  obtain ⟨od, hd⟩ : ∃ od, c.data = od := ⟨_, rfl⟩
  rw [hl] at h
  rcases o with _ | _ | _ | n
  · exact ⟨Or.inl hl, hread h⟩
  · exact ⟨Or.inr (Or.inl hl), hread h⟩
  · exact ⟨Or.inr (Or.inr hl), hread h⟩
  · simp only [hd] at h
    rcases od with _ | s
    · simp [Converter.outputEnd, hl] at h
    · simp at h

theorem emitted_nil : emitted [] = [] := rfl

theorem emitted_ok (tk : XToken) (rs : List (Except Error XToken)) :
    emitted (Except.ok tk :: rs) = tk :: emitted rs := rfl

theorem emitted_error (e : Error) (rs : List (Except Error XToken)) :
    emitted (Except.error e :: rs) = emitted rs := rfl

theorem emitted_map_ok (tks : List XToken) : emitted (tks.map Except.ok) = tks := by
  induction tks with
  | nil => rfl
  | cons tk tks ih => simp [emitted_ok, ih]

theorem calls_succ (E : Env σ) (k : Nat) (c : Converter σ) :
    Converter.calls E (k + 1) c
      = match c.Token E with
        | none => none
        | some (r, c1) =>
          match Converter.calls E k c1 with
          | none => none
          | some (rs, c2) => some (r :: rs, c2) := rfl

/-- A sequence of calls that does not panic: its first call and the rest. -/
theorem calls_succ_some (E : Env σ) (k : Nat) (c c2 : Converter σ)
    (rs : List (Except Error XToken)) (h : Converter.calls E (k + 1) c = some (rs, c2)) :
    ∃ r c1 rs1, c.Token E = some (r, c1) ∧ Converter.calls E k c1 = some (rs1, c2)
      ∧ rs = r :: rs1 := by
  rw [calls_succ] at h
  obtain ⟨o, ht⟩ : ∃ o, c.Token E = o := ⟨_, rfl⟩
  rw [ht] at h
  rcases o with _ | ⟨r, c1⟩
  · simp at h
  · obtain ⟨o2, hc⟩ : ∃ o2, Converter.calls E k c1 = o2 := ⟨_, rfl⟩
    simp only [hc] at h
    rcases o2 with _ | ⟨rs1, c3⟩
    · simp at h
    · simp only [Option.some.injEq, Prod.mk.injEq] at h
      obtain ⟨rfl, rfl⟩ := h
      exact ⟨r, c1, rs1, ht, hc, rfl⟩

theorem calls_length (E : Env σ) : ∀ (k : Nat) (c c2 : Converter σ)
    (rs : List (Except Error XToken)), Converter.calls E k c = some (rs, c2) → rs.length = k
  | 0, c, c2, rs, h => by
    simp only [Converter.calls, Option.some.injEq, Prod.mk.injEq] at h
    rw [← h.1]; rfl
  | k + 1, c, c2, rs, h => by
    obtain ⟨r, c1, rs1, _, h2, rfl⟩ := calls_succ_some E k c c2 rs h
    simp [calls_length E k c1 c2 rs1 h2]

/-- Any property of the tokens returned so far and the state that the fresh state has and
every call of `Token` keeps holds after every sequence of calls. -/
theorem calls_invariant (E : Env σ) (P : List XToken → Converter σ → Prop)
    (hok : ∀ tks c tk c1, P tks c → c.Token E = some (Except.ok tk, c1) → P (tks ++ [tk]) c1)
    (herr : ∀ tks c e c1, P tks c → c.Token E = some (Except.error e, c1) → P tks c1) :
    ∀ (k : Nat) (c c2 : Converter σ) (pre : List XToken) (rs : List (Except Error XToken)),
      P pre c → Converter.calls E k c = some (rs, c2) → P (pre ++ emitted rs) c2
  | 0, c, c2, pre, rs, hp, h => by
    simp only [Converter.calls, Option.some.injEq, Prod.mk.injEq] at h
    obtain ⟨rfl, rfl⟩ := h
    simpa [emitted_nil] using hp
  | k + 1, c, c2, pre, rs, hp, h => by
    obtain ⟨r, c1, rs1, ht, h2, rfl⟩ := calls_succ_some E k c c2 rs h
    cases r with
    | ok tk =>
      have := calls_invariant E P hok herr k c1 c2 (pre ++ [tk]) rs1 (hok pre c tk c1 hp ht) h2
      simpa [emitted_ok] using this
    | error e =>
      have := calls_invariant E P hok herr k c1 c2 pre rs1 (herr pre c e c1 hp ht) h2
      simpa [emitted_error] using this

/-- A sequence of calls cut in two. -/
theorem calls_split (E : Env σ) : ∀ (a b : Nat) (c c2 : Converter σ)
    (rs : List (Except Error XToken)), Converter.calls E (a + b) c = some (rs, c2) →
    ∃ cm, Converter.calls E a c = some (rs.take a, cm)
      ∧ Converter.calls E b cm = some (rs.drop a, c2)
  | 0, b, c, c2, rs, h => by
    refine ⟨c, by simp [Converter.calls], ?_⟩
    simpa using h
  | a + 1, b, c, c2, rs, h => by
    have e : a + 1 + b = (a + b) + 1 := by omega
    rw [e] at h
    obtain ⟨r, c1, rs1, ht, h2, rfl⟩ := calls_succ_some E (a + b) c c2 rs h
    obtain ⟨cm, h3, h4⟩ := calls_split E a b c1 c2 rs1 h2
    refine ⟨cm, ?_, by simpa using h4⟩
    rw [calls_succ, ht]
    simp [h3]

/-- A run of the driver loop, told by the calls of `Token` it made: the tokens `tks` it passed to
the sink are what as many calls in a row returned, and its status says how it went on from the
state `ck` after them. -/
theorem loop_trace {τ : Type} (E : Env σ) (enc : τ → XToken → Option Error × τ) :
    ∀ (fuel : Nat) (c : Converter σ) (x : τ) (sent : List XToken),
    ∃ (tks : List XToken) (ck : Converter σ),
      tks.length ≤ fuel
      ∧ Converter.calls E tks.length c = some (tks.map Except.ok, ck)
      ∧ (Convert.loop E enc fuel c x sent).sent = sent ++ tks
      ∧ match (Convert.loop E enc fuel c x sent).status with
        | Status.returned none =>
          Accepted enc x tks ∧ (Convert.loop E enc fuel c x sent).x = feed enc x tks
          ∧ ck.Token E = some (Except.error Error.EOF, (Convert.loop E enc fuel c x sent).c)
        | Status.returned (some e) =>
          (Accepted enc x tks ∧ (Convert.loop E enc fuel c x sent).x = feed enc x tks
            ∧ e ≠ Error.EOF
            ∧ ck.Token E = some (Except.error e, (Convert.loop E enc fuel c x sent).c))
          ∨ (∃ init tk, tks = init ++ [tk] ∧ Accepted enc x init
            ∧ enc (feed enc x init) tk = (some e, (Convert.loop E enc fuel c x sent).x)
            ∧ (Convert.loop E enc fuel c x sent).c = ck)
        | Status.panicked =>
          Accepted enc x tks ∧ (Convert.loop E enc fuel c x sent).x = feed enc x tks
          ∧ ck.Token E = none ∧ (Convert.loop E enc fuel c x sent).c = ck
        | Status.running =>
          tks.length = fuel ∧ Accepted enc x tks
          ∧ (Convert.loop E enc fuel c x sent).x = feed enc x tks
          ∧ (Convert.loop E enc fuel c x sent).c = ck
  | 0, c, x, sent => by
    refine ⟨[], c, Nat.le_refl _, rfl, by simp [Convert.loop], ?_⟩
    simp [Convert.loop, Accepted, feed]
  | fuel + 1, c, x, sent => by
    obtain ⟨o, ht⟩ : ∃ o, c.Token E = o := ⟨_, rfl⟩
    rcases o with _ | ⟨r, c1⟩
    · refine ⟨[], c, Nat.zero_le _, rfl, by simp [Convert.loop, ht], ?_⟩
      simp [Convert.loop, ht, Accepted, feed]
    · cases r with
      | error e =>
        by_cases he : e = Error.EOF
        · subst he
          refine ⟨[], c, Nat.zero_le _, rfl, by simp [Convert.loop, ht], ?_⟩
          simp [Convert.loop, ht, Accepted, feed]
        · refine ⟨[], c, Nat.zero_le _, rfl, by simp [Convert.loop, ht, he], ?_⟩
          simp [Convert.loop, ht, he, Accepted, feed]
      | ok tk =>
        obtain ⟨oe, x1, hx⟩ : ∃ oe x1, enc x tk = (oe, x1) := ⟨_, _, rfl⟩
        rcases oe with _ | e
        · obtain ⟨tks, ck, hlen, hcalls, hsent, hst⟩ := loop_trace E enc fuel c1 x1 (sent ++ [tk])
          have hloop : Convert.loop E enc (fuel + 1) c x sent
              = Convert.loop E enc fuel c1 x1 (sent ++ [tk]) := by
            simp [Convert.loop, ht, hx]
          refine ⟨tk :: tks, ck, by simpa using hlen, ?_, by simp [hloop, hsent], ?_⟩
          · simp [calls_succ, ht, hcalls]
          · rw [hloop]
            have hacc : ∀ l, Accepted enc x1 l → Accepted enc x (tk :: l) := by
              intro l h
              simp [Accepted, hx, h]
            have hfeed : ∀ l, feed enc x (tk :: l) = feed enc x1 l := by
              intro l
              simp [feed, hx]
            generalize (Convert.loop E enc fuel c1 x1 (sent ++ [tk])).status = st at hst ⊢
            rcases st with (_ | e) | _ | _
            · exact ⟨hacc _ hst.1, by rw [hfeed]; exact hst.2.1, hst.2.2⟩
            · rcases hst with h | ⟨init, tk1, rfl, hA, henc, hc⟩
              · exact Or.inl ⟨hacc _ h.1, by rw [hfeed]; exact h.2.1, h.2.2⟩
              · exact Or.inr ⟨tk :: init, tk1, rfl, hacc _ hA, by rw [hfeed]; exact henc, hc⟩
            · exact ⟨hacc _ hst.1, by rw [hfeed]; exact hst.2.1, hst.2.2⟩
            · exact ⟨by simp [hst.1], hacc _ hst.2.1, by rw [hfeed]; exact hst.2.2.1,
                hst.2.2.2⟩
        · refine ⟨[tk], c1, by simp, ?_, by simp [Convert.loop, ht, hx], ?_⟩
          · simp [calls_succ, ht, Converter.calls]
          · simp only [Convert.loop, ht, hx]
            exact Or.inr ⟨[], tk, rfl, trivial, hx, trivial⟩

theorem depth_concat (tks : List XToken) (tk : XToken) :
    depth (tks ++ [tk]) = depth tks + tk.delta := by
  simp [depth]

theorem length_dropLast_of_getLast? {α : Type} (l : List α) (a : α) (h : l.getLast? = some a) :
    l.dropLast.length + 1 = l.length := by
  cases l with
  | nil => simp at h
  | cons b l => simp

/-- A call that returns a token moves the depth of the stack by what the token says. -/
theorem Token_depth (E : Env σ) (c c1 : Converter σ) (tk : XToken)
    (h : c.Token E = some (Except.ok tk, c1)) :
    (c1.types.length : Int) = c.types.length + tk.delta := by
  rcases Token_ok_cases E c c1 tk h with
    ⟨t, s, _, _, _, rfl, rfl⟩ | ⟨t, hl, _, _, rfl, rfl⟩
    | ⟨_, typ, key, tok, rfl, hty, _⟩ | ⟨_, t, hl, _, rfl, hty, _⟩
  · simp [XToken.delta]
  · have := length_dropLast_of_getLast? _ _ hl
    simp only [XToken.delta]
    omega
  · simp [hty, XToken.delta]
  · have := length_dropLast_of_getLast? _ _ hl
    simp only [XToken.delta, hty]
    omega

/-- After any sequence of calls from a fresh converter, the depth of the stack is the number of
start tokens returned less the number of end tokens. -/
theorem calls_depth (E : Env σ) (j : σ) (k : Nat) (c : Converter σ)
    (rs : List (Except Error XToken)) (h : Converter.calls E k (Tokens j) = some (rs, c)) :
    depth (emitted rs) = c.types.length := by
  have := calls_invariant E (fun tks c => depth tks = c.types.length)
    (fun tks c tk c1 hp ht => by
      simp only at hp ⊢
      rw [depth_concat, hp, Token_depth E c c1 tk ht])
    (fun tks c e c1 hp ht => by
      simp only at hp ⊢
      rw [hp, (Token_error_frame E c c1 e ht).2.1])
    k (Tokens j) c [] rs (by simp [depth, Tokens]) h
  simpa using this

/-- Every prefix of what a run passed to the sink is what as many calls of `Token` returned. -/
theorem convert_prefix_calls {τ : Type} (E : Env σ) (enc : τ → XToken → Option Error × τ)
    (fuel : Nat) (j : σ) (x : τ) (p : List XToken)
    (hp : p <+: (Convert E enc fuel j x).sent) :
    ∃ cp, Converter.calls E p.length (Tokens j) = some (p.map Except.ok, cp) := by
  obtain ⟨tks, ck, _, hcalls, hsent, _⟩ := loop_trace E enc fuel (Tokens j) x []
  have hs : (Convert E enc fuel j x).sent = tks := by simpa [Convert, Tokens] using hsent
  rw [hs] at hp
  obtain ⟨q, rfl⟩ := hp
  rw [List.length_append] at hcalls
  obtain ⟨cm, h1, _⟩ := calls_split E p.length q.length (Tokens j) ck _ hcalls
  exact ⟨cm, by simpa using h1⟩

/-- With a scalar kind on top of the stack, `Token` hands out the pending text if there is one,
and closes the element if there is none. -/
theorem scalar_finish (E : Env σ) (c1 : Converter σ) (st : List ttype) (typ : ttype)
    (htyp : 2 ≤ typ) (hty : c1.types = st ++ [typ]) :
    (∀ text, c1.data = some text →
      c1.Token E = some (Except.ok (XToken.CharData text), { c1 with data := none }))
    ∧ ({ c1 with data := none } : Converter σ).Token E
        = some (Except.ok (XToken.EndElement typ.String),
            { decoder := c1.decoder, types := st, data := none }) := by
  obtain ⟨m, rfl⟩ : ∃ m : Nat, typ = m + 2 := Nat.exists_eq_add_of_le' htyp
  constructor
  · intro text hd
    simp [Converter.Token, hty, hd]
  · simp [Converter.Token, hty, Converter.outputEnd]

theorem openNames_concat (tks : List XToken) (tk : XToken) :
    openNames (tks ++ [tk]) = XToken.onOpen (openNames tks) tk := by
  simp [openNames, List.foldl_append]

/-- A call that returns a token changes the names on the stack as the token changes the names
of the open elements. -/
theorem Token_names (E : Env σ) (c c1 : Converter σ) (tk : XToken)
    (h : c.Token E = some (Except.ok tk, c1)) :
    c1.types.map ttype.String = XToken.onOpen (c.types.map ttype.String) tk := by
  rcases Token_ok_cases E c c1 tk h with
    ⟨t, s, _, _, _, rfl, rfl⟩ | ⟨t, hl, _, _, rfl, rfl⟩
    | ⟨_, typ, key, tok, rfl, hty, _⟩ | ⟨_, t, hl, _, rfl, hty, _⟩
  · simp [XToken.onOpen]
  · simp [XToken.onOpen]
  · simp [XToken.onOpen, hty]
  · simp [XToken.onOpen, hty]

/-- The end-of-element token a call returns has the name of the kind on top of the stack. -/
theorem Token_end_name (E : Env σ) (c c1 : Converter σ) (n : String)
    (h : c.Token E = some (Except.ok (XToken.EndElement n), c1)) :
    (c.types.map ttype.String).getLast? = some n := by
  rcases Token_ok_cases E c c1 _ h with
    ⟨_, _, _, _, _, htk, _⟩ | ⟨t, hl, _, _, htk, _⟩
    | ⟨_, _, _, _, htk, _⟩ | ⟨_, t, hl, _, htk, _⟩
  · cases htk
  · cases htk
    simp [hl]
  · cases htk
  · cases htk
    simp [hl]

/-- After any sequence of calls from a fresh converter, the names of the kinds on the stack are
the names of the open elements. -/
theorem calls_names (E : Env σ) (j : σ) (k : Nat) (c : Converter σ)
    (rs : List (Except Error XToken)) (h : Converter.calls E k (Tokens j) = some (rs, c)) :
    c.types.map ttype.String = openNames (emitted rs) := by
  have := calls_invariant E (fun tks c => c.types.map ttype.String = openNames tks)
    (fun tks c tk c1 hp ht => by
      simp only at hp ⊢
      rw [openNames_concat, ← hp, Token_names E c c1 tk ht])
    (fun tks c e c1 hp ht => by
      simp only at hp ⊢
      rw [← hp, (Token_error_frame E c c1 e ht).2.1])
    k (Tokens j) c [] rs (by simp [openNames, Tokens]) h
  simpa using this

theorem Pending.none_of_reading {tks : List XToken} {c : Converter σ} (hp : Pending tks c)
    (hr : Reading c) : c.data = none := by
  rcases hd : c.data with _ | s
  · rfl
  · obtain ⟨t, attr, hl, ht, _⟩ := hp s hd
    rcases hr with h0 | h0 | h0 <;> rw [h0] at hl <;> cases hl <;> simp at ht

/-- After any sequence of calls from a fresh converter, `Pending` holds. -/
theorem calls_pending (E : Env σ) (j : σ) (k : Nat) (c : Converter σ)
    (rs : List (Except Error XToken)) (h : Converter.calls E k (Tokens j) = some (rs, c)) :
    Pending (emitted rs) c := by
  have := calls_invariant E (fun tks c => Pending tks c)
    (fun tks c tk c1 hp ht => by
      simp only at hp ⊢
      rcases Token_ok_cases E c c1 tk ht with
        ⟨t, s, _, _, _, rfl, rfl⟩ | ⟨t, hl, _, hd, rfl, rfl⟩
        | ⟨hr, typ, key, tok, rfl, hty, _, hkind, _⟩ | ⟨hr, t, hl, _, rfl, hty, hdata⟩
      · intro s hs
        simp at hs
      · intro s hs
        simp only at hs
        rw [hd] at hs
        cases hs
      · intro s hs
        have hnone := hp.none_of_reading hr
        rcases hkind with ⟨_, hd⟩ | hsc
        · rw [hd, hnone] at hs
          cases hs
        · refine ⟨typ, nameAttr key, by simp [hty], ?_, by simp⟩
          rw [hs] at hsc
          cases tok <;> simp [scalarOf] at hsc <;> simp [← hsc]
      · intro s hs
        rw [hdata, hp.none_of_reading hr] at hs
        cases hs)
    (fun tks c e c1 hp ht => by
      simp only at hp ⊢
      obtain ⟨hr, _, hdata⟩ := Token_error_frame E c c1 e ht
      intro s hs
      rw [hdata, hp.none_of_reading hr] at hs
      cases hs)
    k (Tokens j) c [] rs (by intro s hs; simp [Tokens] at hs) h
  simpa using this

/-- The driver loop follows the calls of `Token` as long as the sink accepts what they return. -/
theorem loop_forward {τ : Type} (E : Env σ) (enc : τ → XToken → Option Error × τ) :
    ∀ (tks : List XToken) (c ck : Converter σ) (x : τ) (sent : List XToken) (n : Nat),
      Converter.calls E tks.length c = some (tks.map Except.ok, ck) → Accepted enc x tks →
      Convert.loop E enc (n + tks.length) c x sent
        = Convert.loop E enc n ck (feed enc x tks) (sent ++ tks)
  | [], c, ck, x, sent, n, hc, _ => by
    simp only [List.length_nil, Converter.calls, List.map_nil, Option.some.injEq,
      Prod.mk.injEq, true_and] at hc
    subst hc
    simp [feed]
  | tk :: tks, c, ck, x, sent, n, hc, ha => by
    obtain ⟨r, c1, rs1, ht, h2, hrs⟩ := calls_succ_some E tks.length c ck _ hc
    simp only [List.map_cons, List.cons.injEq] at hrs
    obtain ⟨rfl, rfl⟩ := hrs
    have e : n + (tk :: tks).length = (n + tks.length) + 1 := by simp; omega
    rw [e, loop_step E enc ht x ha.1, loop_forward E enc tks c1 ck _ _ n h2 ha.2]
    simp [feed]

end Calls

/-! ## Lemmas on what a call reads -/

section Reads

variable {σ : Type}

theorem Token_of_reading (E : Env σ) (c : Converter σ) (hr : Reading c) :
    c.Token E = c.readLoop E none := by
  rcases hr with h | h | h <;> simp [Converter.Token, h]

/-- With a scalar kind on top of the stack a call of `Token` returns a token. -/
theorem Token_of_scalar (E : Env σ) (c : Converter σ) (hr : ¬ Reading c) :
    ∃ tk c1, c.Token E = some (Except.ok tk, c1) ∧ c1.decoder = c.decoder := by
  obtain ⟨o, hl⟩ : ∃ o, c.types.getLast? = o := ⟨_, rfl⟩
  rcases o with _ | _ | _ | n
  · exact absurd (Or.inl hl) hr
  · exact absurd (Or.inr (Or.inl hl)) hr
  · exact absurd (Or.inr (Or.inr hl)) hr
  · obtain ⟨od, hd⟩ : ∃ od, c.data = od := ⟨_, rfl⟩
    rcases od with _ | s
    · exact ⟨XToken.EndElement (ttype.String (n + 2)), { c with types := c.types.dropLast },
        by simp [Converter.Token, hl, hd, Converter.outputEnd], rfl⟩
    · exact ⟨XToken.CharData s, { c with data := none },
        by simp [Converter.Token, hl, hd], rfl⟩

/-- What a round that returns an error did: its read failed, or it took a key and the next
round returned the error. -/
theorem round_error_cases (E : Env σ) (again : Option String → Converter σ → Result σ)
    (keyName : Option String) (c c1 : Converter σ) (e : Error)
    (h : Converter.round E again keyName c = some (Except.error e, c1)) :
    (E.decoderToken c.decoder = (Except.error e, c1.decoder) ∧ c1.types = c.types
        ∧ c1.data = c.data)
    ∨ (∃ s, keyName = none ∧ c.types.getLast? = some typObject
        ∧ (E.decoderToken c.decoder).1 = Except.ok (JToken.string s)
        ∧ again (some s) { c with decoder := (E.decoderToken c.decoder).2 }
            = some (Except.error e, c1)) := by
  unfold Converter.round at h
  rcases hdec : E.decoderToken c.decoder with ⟨r, d⟩
  rw [hdec] at h
  cases r with
  | error e1 =>
    simp only [Option.some.injEq, Prod.mk.injEq, Except.error.injEq] at h
    obtain ⟨rfl, rfl⟩ := h
    exact Or.inl ⟨rfl, rfl, rfl⟩
  | ok tok =>
    cases tok with
    | Delim dl => cases dl <;> simp [Result.ret, Converter.outputEnd] at h
    | bool b => cases b <;> simp [Result.ret] at h
    | float64 f => simp [Result.ret] at h
    | Number s => simp [Result.ret] at h
    | string s =>
      simp only at h
      split at h
      · rename_i hk
        exact Or.inr ⟨s, hk.2, hk.1, rfl, h⟩
      · simp [Result.ret] at h
    | null => simp [Result.ret] at h

/-- What a round that panics did: it read a close delimiter with the stack empty, or it took a
key and the next round panicked. -/
theorem round_none_cases (E : Env σ) (again : Option String → Converter σ → Result σ)
    (keyName : Option String) (c : Converter σ)
    (h : Converter.round E again keyName c = none) :
    (c.types = []
        ∧ ((E.decoderToken c.decoder).1 = Except.ok (JToken.Delim Delim.objClose)
          ∨ (E.decoderToken c.decoder).1 = Except.ok (JToken.Delim Delim.arrClose)))
    ∨ (∃ s, keyName = none ∧ c.types.getLast? = some typObject
        ∧ (E.decoderToken c.decoder).1 = Except.ok (JToken.string s)
        ∧ again (some s) { c with decoder := (E.decoderToken c.decoder).2 } = none) := by
  unfold Converter.round at h
  rcases hdec : E.decoderToken c.decoder with ⟨r, d⟩
  rw [hdec] at h
  cases r with
  | error e1 => simp at h
  | ok tok =>
    cases tok with
    | Delim dl =>
      cases dl with
      | objOpen => simp [Result.ret] at h
      | arrOpen => simp [Result.ret] at h
      | objClose =>
        rcases hl : c.types.getLast? with _ | t
        · exact Or.inl ⟨List.getLast?_eq_none_iff.1 hl, Or.inl rfl⟩
        · simp [Converter.outputEnd, hl] at h
      | arrClose =>
        rcases hl : c.types.getLast? with _ | t
        · exact Or.inl ⟨List.getLast?_eq_none_iff.1 hl, Or.inr rfl⟩
        · simp [Converter.outputEnd, hl] at h
    | bool b => cases b <;> simp [Result.ret] at h
    | float64 f => simp [Result.ret] at h
    | Number s => simp [Result.ret] at h
    | string s =>
      simp only at h
      split at h
      · rename_i hk
        exact Or.inr ⟨s, hk.2, hk.1, rfl, h⟩
      · simp [Result.ret] at h
    | null => simp [Result.ret] at h

/-- A call of `Token` that returns an error made a read that failed with it: its first read, or
the read after a key. Nothing but the decoder has changed. -/
theorem Token_error_cases (E : Env σ) (c c1 : Converter σ) (e : Error)
    (h : c.Token E = some (Except.error e, c1)) :
    Reading c ∧ ∃ d0, (d0 = c.decoder
        ∨ ∃ k, c.types.getLast? = some typObject
            ∧ E.decoderToken c.decoder = (Except.ok (JToken.string k), d0))
      ∧ E.decoderToken d0 = (Except.error e, c1.decoder)
      ∧ c1.types = c.types ∧ c1.data = c.data := by
  have hr := (Token_error_frame E c c1 e h).1
  refine ⟨hr, ?_⟩
  rw [Token_of_reading E c hr] at h
  rcases round_error_cases E _ none c c1 e h with ⟨h1, h2, h3⟩ | ⟨s, _, ho, hs, h2⟩
  · exact ⟨c.decoder, Or.inl rfl, h1, h2, h3⟩
  · rcases round_error_cases E _ (some s) _ c1 e h2 with ⟨h1, h3, h4⟩ | ⟨_, hn, _⟩
    · exact ⟨(E.decoderToken c.decoder).2, Or.inr ⟨s, ho, Prod.ext hs rfl⟩, h1, h3, h4⟩
    · cases hn

/-- A call of `Token` panics exactly when the stack is empty and the token read is a close
delimiter. -/
theorem Token_none_iff (E : Env σ) (c : Converter σ) :
    c.Token E = none ↔ (c.types = []
      ∧ ((E.decoderToken c.decoder).1 = Except.ok (JToken.Delim Delim.objClose)
        ∨ (E.decoderToken c.decoder).1 = Except.ok (JToken.Delim Delim.arrClose))) := by
  constructor
  · intro h
    by_cases hr : Reading c
    · rw [Token_of_reading E c hr] at h
      rcases round_none_cases E _ none c h with h1 | ⟨s, _, ho, _, h2⟩
      · exact h1
      · rcases round_none_cases E _ (some s) _ h2 with ⟨h1, _⟩ | ⟨_, hn, _⟩
        · simp only at h1
          simp [h1] at ho
        · cases hn
    · obtain ⟨tk, c1, h1, _⟩ := Token_of_scalar E c hr
      rw [h1] at h
      cases h
  · rintro ⟨h0, h1⟩
    rcases hd : E.decoderToken c.decoder with ⟨r, d⟩
    rw [hd] at h1
    simp only at h1
    rcases h1 with rfl | rfl <;>
      simp [Converter.Token, Converter.readLoop, Converter.round, h0, hd, Converter.outputEnd]

/-- What a call of `Token` that had to read and returns a token read: the token `tok` it made
its return from, read from the decoder `d0`, which is the decoder of the call or, after a key,
the one the read of the key left. -/
theorem Token_ok_reads (E : Env σ) (c c1 : Converter σ) (tk : XToken) (hr : Reading c)
    (h : c.Token E = some (Except.ok tk, c1)) :
    ∃ key tok d0,
      ((key = none ∧ d0 = c.decoder
          ∧ (c.types.getLast? = some typObject → ∀ s, tok ≠ JToken.string s))
        ∨ (∃ k, key = some k ∧ c.types.getLast? = some typObject
            ∧ E.decoderToken c.decoder = (Except.ok (JToken.string k), d0)))
      ∧ (E.decoderToken d0).1 = Except.ok tok ∧ c1.decoder = (E.decoderToken d0).2
      ∧ ((∃ typ, tk = XToken.StartElement typ.String (nameAttr key)
            ∧ c1.types = c.types ++ [typ]
            ∧ (((tok = JToken.Delim Delim.objOpen ∧ typ = typObject
                  ∨ tok = JToken.Delim Delim.arrOpen ∧ typ = typArray) ∧ c1.data = c.data)
                ∨ scalarOf E tok = some (typ, c1.data)))
        ∨ (∃ t, (tok = JToken.Delim Delim.objClose ∨ tok = JToken.Delim Delim.arrClose)
            ∧ c.types.getLast? = some t ∧ tk = XToken.EndElement t.String
            ∧ c1.types = c.types.dropLast ∧ c1.data = c.data)) := by
  rw [Token_of_reading E c hr] at h
  rcases round_ok_cases E _ none c c1 tk h with
    ⟨typ, tok, hd, hnk, rfl, hc1, hdata⟩ | ⟨t, ht, hcl, rfl, hc1⟩ | ⟨s, _, ho, hd, h2⟩
  · exact ⟨none, tok, c.decoder, Or.inl ⟨rfl, rfl, hnk rfl⟩, hd, by rw [hc1],
      Or.inl ⟨typ, rfl, by rw [hc1], hdata⟩⟩
  · rcases hcl with hcl | hcl
    · exact ⟨none, _, c.decoder, Or.inl ⟨rfl, rfl, fun _ s hs => by cases hs⟩, hcl, by rw [hc1],
        Or.inr ⟨t, Or.inl rfl, ht, rfl, by rw [hc1], by rw [hc1]⟩⟩
    · exact ⟨none, _, c.decoder, Or.inl ⟨rfl, rfl, fun _ s hs => by cases hs⟩, hcl, by rw [hc1],
        Or.inr ⟨t, Or.inr rfl, ht, rfl, by rw [hc1], by rw [hc1]⟩⟩
  · have hkey : E.decoderToken c.decoder
        = (Except.ok (JToken.string s), (E.decoderToken c.decoder).2) := Prod.ext hd rfl
    rcases round_ok_cases E _ (some s) _ c1 tk h2 with
      ⟨typ, tok, hd2, _, rfl, hc1, hdata⟩ | ⟨t, ht, hcl, rfl, hc1⟩ | ⟨_, hn, _⟩
    · exact ⟨some s, tok, _, Or.inr ⟨s, rfl, ho, hkey⟩, hd2, by rw [hc1],
        Or.inl ⟨typ, rfl, by rw [hc1], hdata⟩⟩
    · rcases hcl with hcl | hcl
      · exact ⟨some s, _, _, Or.inr ⟨s, rfl, ho, hkey⟩, hcl, by rw [hc1],
          Or.inr ⟨t, Or.inl rfl, ht, rfl, by rw [hc1], by rw [hc1]⟩⟩
      · exact ⟨some s, _, _, Or.inr ⟨s, rfl, ho, hkey⟩, hcl, by rw [hc1],
          Or.inr ⟨t, Or.inr rfl, ht, rfl, by rw [hc1], by rw [hc1]⟩⟩
    · cases hn

/-- A read that fails, made where the converter has to read, is what the call returns. -/
theorem Token_read_error (E : Env σ) (c : Converter σ) (e : Error) (hr : Reading c)
    (herr : (E.decoderToken c.decoder).1 = Except.error e
      ∨ ∃ k, c.types.getLast? = some typObject
          ∧ (E.decoderToken c.decoder).1 = Except.ok (JToken.string k)
          ∧ (E.decoderToken (E.decoderToken c.decoder).2).1 = Except.error e) :
    ∃ c1, c.Token E = some (Except.error e, c1) := by
  rcases hd : E.decoderToken c.decoder with ⟨r, d⟩
  rw [hd] at herr
  simp only at herr
  rcases herr with rfl | ⟨k, ho, rfl, h2⟩
  · rcases hr with ho | ho | ho <;>
      exact ⟨{ c with decoder := d },
        by simp [Converter.Token, Converter.readLoop, Converter.round, ho, hd]⟩
  · rcases hd2 : E.decoderToken d with ⟨r2, d2⟩
    rw [hd2] at h2
    simp only at h2
    subst h2
    exact ⟨{ c with decoder := d2 },
      by simp [Converter.Token, Converter.readLoop, Converter.round, ho, hd, hd2]⟩

theorem String_mem_elementNames (t : ttype) (h : t ≤ 5) : t.String ∈ elementNames := by
  rcases t with _ | _ | _ | _ | _ | _ | n
  iterate 6 simp [ttype.String, elementNames]
  exact absurd h (Nat.not_le_of_gt (Nat.le_add_left 6 n))

/-- After any sequence of calls from a fresh converter, every kind on the stack is one of the six
and every start or end token returned has one of the six names. -/
theorem calls_named (E : Env σ) (j : σ) (k : Nat) (c : Converter σ)
    (rs : List (Except Error XToken)) (h : Converter.calls E k (Tokens j) = some (rs, c)) :
    (∀ t ∈ c.types, t ≤ 5) ∧ ∀ tk ∈ emitted rs, tk.Named := by
  have := calls_invariant E
    (fun tks c => (∀ t ∈ c.types, t ≤ 5) ∧ ∀ tk ∈ tks, XToken.Named tk)
    (fun tks c tk c1 hp ht => by
      simp only at hp ⊢
      obtain ⟨hty, hnm⟩ := hp
      have key : (∀ t ∈ c1.types, t ≤ 5) ∧ tk.Named := by
        rcases Token_ok_cases E c c1 tk ht with
          ⟨t, s, _, _, _, rfl, rfl⟩ | ⟨t, hl, _, _, rfl, rfl⟩
          | ⟨_, typ, key, tok, rfl, hc1, _, hkind, _⟩ | ⟨_, t, hl, _, rfl, hc1, _⟩
        · exact ⟨hty, trivial⟩
        · exact ⟨fun u hu => hty u (List.mem_of_mem_dropLast hu),
            String_mem_elementNames t (hty t (List.mem_of_getLast?_eq_some hl))⟩
        · have h5 : typ ≤ 5 := by
            rcases started_kind E tok typ c1.data c.data hkind with ⟨h1, _⟩ | ⟨_, h1, _⟩ | ⟨h1, _⟩
            · exact Nat.le_trans h1 (by decide)
            · exact Nat.le_trans h1 (by decide)
            · exact Nat.le_of_eq h1
          refine ⟨?_, String_mem_elementNames typ h5⟩
          intro u hu
          rw [hc1] at hu
          rcases List.mem_append.1 hu with hu | hu
          · exact hty u hu
          · simp only [List.mem_singleton] at hu
            rw [hu]
            exact h5
        · refine ⟨?_, String_mem_elementNames t (hty t (List.mem_of_getLast?_eq_some hl))⟩
          intro u hu
          rw [hc1] at hu
          exact hty u (List.mem_of_mem_dropLast hu)
      refine ⟨key.1, ?_⟩
      intro tk1 h1
      rcases List.mem_append.1 h1 with h1 | h1
      · exact hnm tk1 h1
      · simp only [List.mem_singleton] at h1
        rw [h1]
        exact key.2)
    (fun tks c e c1 hp ht => by
      simp only at hp ⊢
      rw [(Token_error_frame E c c1 e ht).2.1]
      exact hp)
    k (Tokens j) c [] rs (by simp [Tokens]) h
  simpa using this

theorem counting_read (E : Env σ) (s : σ × Nat) :
    ((counting E).decoderToken s).1 = (E.decoderToken s.1).1
    ∧ ((counting E).decoderToken s).2.1 = (E.decoderToken s.1).2
    ∧ ((counting E).decoderToken s).2.2 = s.2 + 1 :=
  ⟨rfl, rfl, rfl⟩

/-- Counting the reads does not change what a round returns. -/
theorem round_counting (E : Env σ) (again : Option String → Converter σ → Result σ)
    (again2 : Option String → Converter (σ × Nat) → Result (σ × Nat))
    (hag : ∀ k c, (again2 k c).map (fun p => (p.1, p.2.uncount)) = again k c.uncount)
    (keyName : Option String) (c : Converter (σ × Nat)) :
    (Converter.round (counting E) again2 keyName c).map (fun p => (p.1, p.2.uncount))
      = Converter.round E again keyName c.uncount := by
  unfold Converter.round
  simp only [counting, Converter.uncount]
  rcases hd : E.decoderToken c.decoder.1 with ⟨r, d⟩
  cases r with
  | error e => simp
  | ok tok =>
    obtain ⟨o, hl⟩ : ∃ o, c.types.getLast? = o := ⟨_, rfl⟩
    cases tok with
    | Delim dl =>
      cases dl
      · simp [Result.ret, Converter.outputStart]
      · simp [Result.ret, Converter.outputStart]
      · dsimp only
        rcases o with _ | t <;> simp [Converter.outputEnd, hl]
      · dsimp only
        rcases o with _ | t <;> simp [Converter.outputEnd, hl]
    | bool b => cases b <;> simp [Result.ret, Converter.outputStart, Converter.outputType]
    | float64 f => simp [Result.ret, Converter.outputStart, Converter.outputType]
    | Number s => simp [Result.ret, Converter.outputStart, Converter.outputType]
    | string s =>
      dsimp only
      split
      · have := hag (some s) { decoder := (d, c.decoder.2 + 1), types := c.types, data := c.data }
        simpa [Converter.uncount] using this
      · simp [Result.ret, Converter.outputStart, Converter.outputType]
    | null => simp [Result.ret, Converter.outputStart, Converter.outputType]

/-- Counting the reads does not change what `Token` returns. -/
theorem Token_counting (E : Env σ) (c : Converter (σ × Nat)) :
    (c.Token (counting E)).map (fun p => (p.1, p.2.uncount)) = c.uncount.Token E := by
  have hread : (c.readLoop (counting E) none).map (fun p => (p.1, p.2.uncount))
      = c.uncount.readLoop E none := by
    unfold Converter.readLoop
    exact round_counting E _ _
      (fun k c2 => round_counting E _ _ (fun _ _ => rfl) k c2) none c
  unfold Converter.Token
  obtain ⟨o, hl⟩ : ∃ o, c.types.getLast? = o := ⟨_, rfl⟩
  have hl2 : c.uncount.types.getLast? = o := hl
  rw [hl, hl2]
  rcases o with _ | _ | _ | n
  · exact hread
  · exact hread
  · exact hread
  · rcases hd : c.data with _ | s
    · simp [Converter.uncount, hd, Converter.outputEnd, hl]
    · simp [Converter.uncount, hd]

end Reads

/-! ## Lemmas on well-formed token streams and the stack over them -/

section WellFormed

theorem prefix_append_cases {α : Type} {q a b : List α} (h : q <+: a ++ b) :
    q <+: a ∨ ∃ q1, q = a ++ q1 ∧ q1 <+: b := by
  rcases List.prefix_or_prefix_of_prefix h (List.prefix_append a b) with h1 | ⟨q1, rfl⟩
  · exact Or.inl h1
  · exact Or.inr ⟨q1, rfl, (List.prefix_append_right_inj a).1 h⟩

theorem jdepth_nil : jdepth [] = 0 := rfl

theorem jdepth_cons (t : JToken) (ts : List JToken) : jdepth (t :: ts) = t.jdelta + jdepth ts := by
  simp [jdepth]

theorem jdepth_append (a b : List JToken) : jdepth (a ++ b) = jdepth a + jdepth b := by
  simp [jdepth]

mutual
/-- In the tokens of a value every prefix has between 0 and the nesting of the value
containers open, and the whole has none. -/
theorem tokens_balanced : (v : JValue) →
    jdepth v.tokens = 0 ∧ ∀ q, q <+: v.tokens → 0 ≤ jdepth q ∧ jdepth q ≤ v.nesting
  | JValue.object ms => by
    obtain ⟨h0, hq⟩ := membersTokens_balanced ms
    simp only [JValue.tokens, JValue.nesting]
    refine ⟨by simp [jdepth_cons, jdepth_append, jdepth_nil, h0, JToken.jdelta], ?_⟩
    intro q hq1
    rcases List.prefix_cons_iff.1 hq1 with rfl | ⟨t, rfl, ht⟩
    · simp only [jdepth_nil, Nat.cast_add, Nat.cast_one]
      omega
    · rcases List.prefix_concat_iff.1 ht with rfl | ht
      · simp only [jdepth_cons, jdepth_append, jdepth_nil, h0, JToken.jdelta, Nat.cast_add,
          Nat.cast_one]
        omega
      · have := hq t ht
        simp only [jdepth_cons, JToken.jdelta, Nat.cast_add, Nat.cast_one]
        omega
  | JValue.array es => by
    obtain ⟨h0, hq⟩ := elemsTokens_balanced es
    simp only [JValue.tokens, JValue.nesting]
    refine ⟨by simp [jdepth_cons, jdepth_append, jdepth_nil, h0, JToken.jdelta], ?_⟩
    intro q hq1
    rcases List.prefix_cons_iff.1 hq1 with rfl | ⟨t, rfl, ht⟩
    · simp only [jdepth_nil, Nat.cast_add, Nat.cast_one]
      omega
    · rcases List.prefix_concat_iff.1 ht with rfl | ht
      · simp only [jdepth_cons, jdepth_append, jdepth_nil, h0, JToken.jdelta, Nat.cast_add,
          Nat.cast_one]
        omega
      · have := hq t ht
        simp only [jdepth_cons, JToken.jdelta, Nat.cast_add, Nat.cast_one]
        omega
  | JValue.bool b => by
    simp only [JValue.tokens, JValue.nesting]
    refine ⟨by simp [jdepth, JToken.jdelta], ?_⟩
    intro q hq1
    rcases List.prefix_cons_iff.1 hq1 with rfl | ⟨t, rfl, ht⟩
    · simp [jdepth_nil]
    · rw [List.prefix_nil] at ht
      subst ht
      simp [jdepth, JToken.jdelta]
  | JValue.number s => by
    simp only [JValue.tokens, JValue.nesting]
    refine ⟨by simp [jdepth, JToken.jdelta], ?_⟩
    intro q hq1
    rcases List.prefix_cons_iff.1 hq1 with rfl | ⟨t, rfl, ht⟩
    · simp [jdepth_nil]
    · rw [List.prefix_nil] at ht
      subst ht
      simp [jdepth, JToken.jdelta]
  | JValue.string s => by
    simp only [JValue.tokens, JValue.nesting]
    refine ⟨by simp [jdepth, JToken.jdelta], ?_⟩
    intro q hq1
    rcases List.prefix_cons_iff.1 hq1 with rfl | ⟨t, rfl, ht⟩
    · simp [jdepth_nil]
    · rw [List.prefix_nil] at ht
      subst ht
      simp [jdepth, JToken.jdelta]
  | JValue.null => by
    simp only [JValue.tokens, JValue.nesting]
    refine ⟨by simp [jdepth, JToken.jdelta], ?_⟩
    intro q hq1
    rcases List.prefix_cons_iff.1 hq1 with rfl | ⟨t, rfl, ht⟩
    · simp [jdepth_nil]
    · rw [List.prefix_nil] at ht
      subst ht
      simp [jdepth, JToken.jdelta]
theorem membersTokens_balanced : (ms : List (String × JValue)) →
    jdepth (membersTokens ms) = 0
    ∧ ∀ q, q <+: membersTokens ms → 0 ≤ jdepth q ∧ jdepth q ≤ membersNesting ms
  | [] => by
    simp only [membersTokens, membersNesting]
    refine ⟨rfl, ?_⟩
    intro q hq
    rw [List.prefix_nil] at hq
    subst hq
    simp [jdepth_nil]
  | (k, v) :: ms => by
    obtain ⟨hv0, hvq⟩ := tokens_balanced v
    obtain ⟨h0, hq⟩ := membersTokens_balanced ms
    simp only [membersTokens, membersNesting]
    refine ⟨by simp [jdepth_cons, jdepth_append, h0, hv0, JToken.jdelta], ?_⟩
    intro q hq1
    rcases List.prefix_cons_iff.1 hq1 with rfl | ⟨t, rfl, ht⟩
    · simp [jdepth_nil]
    · simp only [jdepth_cons, JToken.jdelta, Nat.cast_max]
      rcases prefix_append_cases ht with h1 | ⟨q1, rfl, h1⟩
      · have := hvq t h1
        omega
      · have := hq q1 h1
        rw [jdepth_append, hv0]
        omega
theorem elemsTokens_balanced : (es : List JValue) →
    jdepth (elemsTokens es) = 0
    ∧ ∀ q, q <+: elemsTokens es → 0 ≤ jdepth q ∧ jdepth q ≤ elemsNesting es
  | [] => by
    simp only [elemsTokens, elemsNesting]
    refine ⟨rfl, ?_⟩
    intro q hq
    rw [List.prefix_nil] at hq
    subst hq
    simp [jdepth_nil]
  | v :: es => by
    obtain ⟨hv0, hvq⟩ := tokens_balanced v
    obtain ⟨h0, hq⟩ := elemsTokens_balanced es
    simp only [elemsTokens, elemsNesting]
    refine ⟨by simp [jdepth_append, h0, hv0], ?_⟩
    intro q hq1
    simp only [Nat.cast_max]
    rcases prefix_append_cases hq1 with h1 | ⟨q1, rfl, h1⟩
    · have := hvq q h1
      omega
    · have := hq q1 h1
      rw [jdepth_append, hv0]
      omega
end

theorem listEnv_read_nil (fmt : float64 → String) :
    (listEnv fmt).decoderToken (reads []) = (Except.error Error.EOF, reads []) := rfl

theorem listEnv_read_cons (fmt : float64 → String) (t : JToken) (ts : List JToken) :
    (listEnv fmt).decoderToken (reads (t :: ts)) = (Except.ok t, reads ts) := rfl

theorem scalarTop_of_reading {σ : Type} (c : Converter σ) (hr : Reading c) :
    scalarTop c.types = 0 := by
  rcases hr with h | h | h <;> simp [scalarTop, h]

theorem scalarTop_push (st : List ttype) (typ : ttype) :
    scalarTop (st ++ [typ]) = if 2 ≤ typ then 1 else 0 := by
  simp [scalarTop]

theorem scalarTop_of_scalar (st : List ttype) (t : ttype) (hl : st.getLast? = some t)
    (ht : 2 ≤ t) : scalarTop st = 1 := by
  simp [scalarTop, hl, ht]

/-- Where the converter has to read, the whole stack is containers. -/
theorem all_containers {σ : Type} (c : Converter σ) (hr : Reading c) (hb : Below c.types) :
    ∀ t ∈ c.types, t ≤ 1 := by
  intro t ht
  rcases hr with h | h | h
  · rw [List.getLast?_eq_none_iff.1 h] at ht
    cases ht
  · rw [← List.dropLast_append_getLast? _ h, List.mem_append] at ht
    rcases ht with ht | ht
    · exact hb t ht
    · simp only [List.mem_singleton] at ht
      subst ht
      decide
  · rw [← List.dropLast_append_getLast? _ h, List.mem_append] at ht
    rcases ht with ht | ht
    · exact hb t ht
    · simp only [List.mem_singleton] at ht
      subst ht
      decide

theorem Below_push (st : List ttype) (typ : ttype) (h : ∀ t ∈ st, t ≤ 1) :
    Below (st ++ [typ]) := by
  intro t ht
  rw [List.dropLast_concat] at ht
  exact h t ht

theorem Below_pop (st : List ttype) (hb : Below st) :
    Below st.dropLast ∧ scalarTop st.dropLast = 0 := by
  constructor
  · intro t ht
    exact hb t (List.mem_of_mem_dropLast ht)
  · rcases hl : st.dropLast.getLast? with _ | t
    · simp [scalarTop, hl]
    · have := hb t (List.mem_of_getLast?_eq_some hl)
      have h2 : ¬ 2 ≤ t := Nat.not_le_of_gt (Nat.lt_succ_of_le this)
      simp [scalarTop, hl, h2]

theorem scalarOf_facts {σ : Type} (E : Env σ) (tok : JToken) (typ : ttype)
    (data : Option String) (h : scalarOf E tok = some (typ, data)) :
    tok.jdelta = 0 ∧ 2 ≤ typ := by
  cases tok with
  | Delim dl => simp [scalarOf] at h
  | bool b =>
    simp only [scalarOf, Option.some.injEq, Prod.mk.injEq] at h
    exact ⟨rfl, h.1 ▸ (by decide : 2 ≤ typBool)⟩
  | float64 f =>
    simp only [scalarOf, Option.some.injEq, Prod.mk.injEq] at h
    exact ⟨rfl, h.1 ▸ (by decide : 2 ≤ typNumber)⟩
  | Number s =>
    simp only [scalarOf, Option.some.injEq, Prod.mk.injEq] at h
    exact ⟨rfl, h.1 ▸ (by decide : 2 ≤ typNumber)⟩
  | string s =>
    simp only [scalarOf, Option.some.injEq, Prod.mk.injEq] at h
    exact ⟨rfl, h.1 ▸ (by decide : 2 ≤ typString)⟩
  | null =>
    simp only [scalarOf, Option.some.injEq, Prod.mk.injEq] at h
    exact ⟨rfl, h.1 ▸ (by decide : 2 ≤ typNull)⟩

/-- A read of the list decoder that gives a token takes it off the front of what is left. -/
theorem listEnv_read_ok (fmt : float64 → String) (rest : List JToken) (tok : JToken)
    (h : ((listEnv fmt).decoderToken (reads rest)).1 = Except.ok tok) :
    ∃ rest1, rest = tok :: rest1 ∧ ((listEnv fmt).decoderToken (reads rest)).2 = reads rest1 := by
  cases rest with
  | nil => simp [listEnv_read_nil] at h
  | cons t rest1 =>
    rw [listEnv_read_cons] at h ⊢
    simp only [Except.ok.injEq] at h
    subst h
    exact ⟨rest1, rfl, rfl⟩

/-- A read of the list decoder that fails is at the end, and leaves the decoder there. -/
theorem listEnv_read_error (fmt : float64 → String) (rest : List JToken) (e : Error)
    (d : List (Except Error JToken))
    (h : (listEnv fmt).decoderToken (reads rest) = (Except.error e, d)) :
    rest = [] ∧ d = reads [] := by
  cases rest with
  | nil =>
    rw [listEnv_read_nil] at h
    exact ⟨rfl, (congrArg Prod.snd h).symm⟩
  | cons t rest1 =>
    rw [listEnv_read_cons] at h
    cases congrArg Prod.fst h

/-- A call of `Token` over the list decoder of `p` keeps `Consumed`, with more tokens read. -/
theorem Token_consumed (fmt : float64 → String) (p q : List JToken)
    (c c1 : Converter (List (Except Error JToken))) (r : Except Error XToken)
    (hc : Consumed p c q) (h : c.Token (listEnv fmt) = some (r, c1)) :
    ∃ q1, Consumed p c1 q1 := by
  obtain ⟨rest, hp, hdec, hb, hlen⟩ := hc
  by_cases hr : Reading c
  · have hs0 := scalarTop_of_reading c hr
    cases r with
    | error e =>
      obtain ⟨_, d0, hd0, hread, hty, _⟩ := Token_error_cases (listEnv fmt) c c1 e h
      rcases hd0 with rfl | ⟨k, _, hk⟩
      · rw [hdec] at hread
        obtain ⟨rfl, hd1⟩ := listEnv_read_error fmt rest e _ hread
        exact ⟨q, [], hp, hd1, by rw [hty]; exact hb, by rw [hty]; exact hlen⟩
      · rw [hdec] at hk
        obtain ⟨rest1, rfl, hd2⟩ := listEnv_read_ok fmt rest (JToken.string k)
          (congrArg Prod.fst hk)
        have hd0 : d0 = reads rest1 := by rw [← hd2, hk]
        rw [hd0] at hread
        obtain ⟨rfl, hd1⟩ := listEnv_read_error fmt rest1 e _ hread
        refine ⟨q ++ [JToken.string k], [], by simpa using hp, hd1, by rw [hty]; exact hb, ?_⟩
        rw [hty, hlen, jdepth_append]
        simp [jdepth, JToken.jdelta]
    | ok tk =>
      obtain ⟨key, tok, d0, hd0, hread, hdec1, heff⟩ := Token_ok_reads (listEnv fmt) c c1 tk hr h
      have hq1 : ∃ q1 rest1, p = q1 ++ rest1 ∧ c1.decoder = reads rest1
          ∧ jdepth q1 = jdepth q + tok.jdelta := by
        rcases hd0 with ⟨_, rfl, _⟩ | ⟨k, _, _, hk⟩
        · rw [hdec] at hread hdec1
          obtain ⟨rest1, rfl, hd2⟩ := listEnv_read_ok fmt rest tok hread
          refine ⟨q ++ [tok], rest1, by simpa using hp, by rw [hdec1, hd2], ?_⟩
          rw [jdepth_append]
          simp [jdepth]
        · rw [hdec] at hk
          obtain ⟨rest0, rfl, hd2⟩ := listEnv_read_ok fmt rest (JToken.string k)
            (congrArg Prod.fst hk)
          have hd0 : d0 = reads rest0 := by rw [← hd2, hk]
          rw [hd0] at hread hdec1
          obtain ⟨rest1, rfl, hd3⟩ := listEnv_read_ok fmt rest0 tok hread
          refine ⟨q ++ [JToken.string k, tok], rest1, by simpa using hp, by rw [hdec1, hd3], ?_⟩
          rw [jdepth_append]
          simp [jdepth, JToken.jdelta]
      obtain ⟨q1, rest1, hp1, hdc1, hj⟩ := hq1
      refine ⟨q1, rest1, hp1, hdc1, ?_⟩
      have hall := all_containers c hr hb
      rcases heff with ⟨typ, _, hty, hkind⟩ | ⟨t, hclose, hl, _, hty, _⟩
      · rw [hty]
        refine ⟨Below_push _ _ hall, ?_⟩
        rw [scalarTop_push, hj]
        simp only [List.length_append, List.length_singleton, Nat.cast_add, Nat.cast_one]
        rcases hkind with ⟨⟨rfl, rfl⟩ | ⟨rfl, rfl⟩, _⟩ | hsc
        · simp [JToken.jdelta]
          omega
        · simp [JToken.jdelta]
          omega
        · obtain ⟨hz, h2⟩ := scalarOf_facts (listEnv fmt) tok typ _ hsc
          rw [hz, if_pos h2]
          omega
      · obtain ⟨hb1, hs1⟩ := Below_pop c.types hb
        have hl1 := length_dropLast_of_getLast? _ _ hl
        rw [hty]
        refine ⟨hb1, ?_⟩
        rw [hs1, hj]
        have hd : tok.jdelta = -1 := by
          rcases hclose with rfl | rfl <;> rfl
        rw [hd]
        omega
  · cases r with
    | error e => exact absurd (Token_error_frame (listEnv fmt) c c1 e h).1 hr
    | ok tk =>
      rcases Token_ok_cases (listEnv fmt) c c1 tk h with
        ⟨t, s, _, _, _, _, rfl⟩ | ⟨t, hl, ht, _, _, rfl⟩ | ⟨hr1, _⟩ | ⟨hr1, _⟩
      · exact ⟨q, rest, hp, hdec, hb, hlen⟩
      · obtain ⟨hb1, hs1⟩ := Below_pop c.types hb
        have hl1 := length_dropLast_of_getLast? _ _ hl
        have hs := scalarTop_of_scalar c.types t hl ht
        refine ⟨q, rest, hp, hdec, hb1, ?_⟩
        simp only
        rw [hs1]
        rw [hs] at hlen
        omega
      · exact absurd hr1 hr
      · exact absurd hr1 hr

/-- After any sequence of calls over the list decoder of `p`, `Consumed` holds. -/
theorem calls_consumed (fmt : float64 → String) (p : List JToken) (k : Nat)
    (c : Converter (List (Except Error JToken))) (rs : List (Except Error XToken))
    (h : Converter.calls (listEnv fmt) k (Tokens (reads p)) = some (rs, c)) :
    ∃ q, Consumed p c q := by
  have := calls_invariant (listEnv fmt) (fun _ c => ∃ q, Consumed p c q)
    (fun _ c tk c1 hp ht => by
      obtain ⟨q, hq⟩ := hp
      exact Token_consumed fmt p q c c1 _ hq ht)
    (fun _ c e c1 hp ht => by
      obtain ⟨q, hq⟩ := hp
      exact Token_consumed fmt p q c c1 _ hq ht)
    k (Tokens (reads p)) c [] rs
    ⟨[], p, rfl, rfl, by intro t ht; simp [Tokens] at ht,
      by simp [Tokens, jdepth_nil, scalarTop]⟩ h
  exact this

/-- Over a prefix of the tokens of a sequence of values no call of `Token` panics. -/
theorem Token_ne_none_of_consumed (fmt : float64 → String) (vs : List JValue)
    (p q : List JToken) (hp : p <+: elemsTokens vs)
    (c : Converter (List (Except Error JToken))) (hc : Consumed p c q) :
    c.Token (listEnv fmt) ≠ none := by
  intro hn
  obtain ⟨h0, hclose⟩ := (Token_none_iff (listEnv fmt) c).1 hn
  obtain ⟨rest, hpq, hdec, _, hlen⟩ := hc
  rw [hdec] at hclose
  have hq1 : ∃ tok rest1, rest = tok :: rest1 ∧ tok.jdelta = -1 := by
    rcases hclose with h1 | h1
    · obtain ⟨rest1, hr, _⟩ := listEnv_read_ok fmt rest _ h1
      exact ⟨_, rest1, hr, rfl⟩
    · obtain ⟨rest1, hr, _⟩ := listEnv_read_ok fmt rest _ h1
      exact ⟨_, rest1, hr, rfl⟩
  obtain ⟨tok, rest1, rfl, hd⟩ := hq1
  have hpre : q ++ [tok] <+: elemsTokens vs :=
    List.IsPrefix.trans ⟨rest1, by simpa using hpq.symm⟩ hp
  have hbal := ((elemsTokens_balanced vs).2 _ hpre).1
  rw [jdepth_append] at hbal
  simp only [jdepth, List.map_cons, List.map_nil, List.sum_cons, List.sum_nil, hd] at hbal
  rw [h0] at hlen
  simp only [List.length_nil, Nat.cast_zero, scalarTop, List.getLast?_nil] at hlen
  simp only [jdepth] at hlen
  omega

/-- Over a prefix of the tokens of a sequence of values every sequence of calls goes through. -/
theorem calls_total (fmt : float64 → String) (vs : List JValue) (p : List JToken)
    (hp : p <+: elemsTokens vs) : ∀ (k : Nat) (c : Converter (List (Except Error JToken))),
    (∃ q, Consumed p c q) → ∃ rs c1, Converter.calls (listEnv fmt) k c = some (rs, c1)
  | 0, c, _ => ⟨[], c, rfl⟩
  | k + 1, c, ⟨q, hq⟩ => by
    obtain ⟨o, ht⟩ : ∃ o, c.Token (listEnv fmt) = o := ⟨_, rfl⟩
    rcases o with _ | ⟨r, c1⟩
    · exact absurd ht (Token_ne_none_of_consumed fmt vs p q hp c hq)
    · obtain ⟨rs, c2, h2⟩ := calls_total fmt vs p hp k c1 (Token_consumed fmt p q c c1 r hq ht)
      exact ⟨r :: rs, c2, by simp [calls_succ, ht, h2]⟩

theorem scalar_kind_iff_name (t : ttype) (h : t ≤ 5) :
    2 ≤ t ↔ t.String ∈ ["boolean", "number", "string", "null"] := by
  rcases t with _ | _ | _ | _ | _ | _ | n
  iterate 6 simp [ttype.String]
  exact absurd h (Nat.not_le_of_gt (Nat.le_add_left 6 n))

end WellFormed

/-! ## Lemmas on the balance of renderings -/

section Balance

theorem depth_nil : depth [] = 0 := rfl

theorem depth_cons (tk : XToken) (tks : List XToken) :
    depth (tk :: tks) = tk.delta + depth tks := by
  simp [depth]

theorem depth_append (a b : List XToken) : depth (a ++ b) = depth a + depth b := by
  simp [depth]

/-- A started scalar element is open until its end token: the prefixes of its rendering. -/
theorem scalar_prefix_depth (n : String) (attr : List Attr) (s : String) (p : List XToken)
    (hp : p <+: [XToken.StartElement n attr, XToken.CharData s, XToken.EndElement n])
    (h0 : p ≠ [])
    (h1 : p ≠ [XToken.StartElement n attr, XToken.CharData s, XToken.EndElement n]) :
    0 < depth p := by
  rcases List.prefix_cons_iff.1 hp with rfl | ⟨t1, rfl, ht1⟩
  · exact absurd rfl h0
  · rcases List.prefix_cons_iff.1 ht1 with rfl | ⟨t2, rfl, ht2⟩
    · simp [depth, XToken.delta]
    · rcases List.prefix_cons_iff.1 ht2 with rfl | ⟨t3, rfl, ht3⟩
      · simp [depth, XToken.delta]
      · rw [List.prefix_nil] at ht3
        subst ht3
        exact absurd rfl h1

mutual
/-- The rendering of a value is balanced, and inside it an element is always open. -/
theorem render_depth : (v : JValue) → ∀ (key : Option String),
    depth (render key v) = 0
    ∧ ∀ p, p <+: render key v → p ≠ [] → p ≠ render key v → 0 < depth p
  | JValue.object ms => by
    intro key
    obtain ⟨h0, hq⟩ := renderMembers_depth ms
    simp only [render]
    refine ⟨by simp [depth_cons, depth_append, depth_nil, h0, XToken.delta], ?_⟩
    intro p hp hne hnw
    rcases List.prefix_cons_iff.1 hp with rfl | ⟨t, rfl, ht⟩
    · exact absurd rfl hne
    · rcases List.prefix_concat_iff.1 ht with rfl | ht
      · exact absurd rfl hnw
      · have := hq t ht
        simp only [depth_cons, XToken.delta]
        omega
  | JValue.array es => by
    intro key
    obtain ⟨h0, hq⟩ := renderElems_depth es
    simp only [render]
    refine ⟨by simp [depth_cons, depth_append, depth_nil, h0, XToken.delta], ?_⟩
    intro p hp hne hnw
    rcases List.prefix_cons_iff.1 hp with rfl | ⟨t, rfl, ht⟩
    · exact absurd rfl hne
    · rcases List.prefix_concat_iff.1 ht with rfl | ht
      · exact absurd rfl hnw
      · have := hq t ht
        simp only [depth_cons, XToken.delta]
        omega
  | JValue.bool b => by
    intro key
    simp only [render]
    exact ⟨by simp [depth, XToken.delta], fun p hp h0 h1 => scalar_prefix_depth _ _ _ p hp h0 h1⟩
  | JValue.number t => by
    intro key
    simp only [render]
    exact ⟨by simp [depth, XToken.delta], fun p hp h0 h1 => scalar_prefix_depth _ _ _ p hp h0 h1⟩
  | JValue.string s => by
    intro key
    simp only [render]
    exact ⟨by simp [depth, XToken.delta], fun p hp h0 h1 => scalar_prefix_depth _ _ _ p hp h0 h1⟩
  | JValue.null => by
    intro key
    simp only [render]
    refine ⟨by simp [depth, XToken.delta], ?_⟩
    intro p hp h0 h1
    rcases List.prefix_cons_iff.1 hp with rfl | ⟨t1, rfl, ht1⟩
    · exact absurd rfl h0
    · rcases List.prefix_cons_iff.1 ht1 with rfl | ⟨t2, rfl, ht2⟩
      · simp [depth, XToken.delta]
      · rw [List.prefix_nil] at ht2
        subst ht2
        exact absurd rfl h1
theorem renderMembers_depth : (ms : List (String × JValue)) →
    depth (renderMembers ms) = 0 ∧ ∀ p, p <+: renderMembers ms → 0 ≤ depth p
  | [] => by
    simp only [renderMembers]
    refine ⟨rfl, ?_⟩
    intro p hp
    rw [List.prefix_nil] at hp
    subst hp
    simp [depth_nil]
  | (k, v) :: ms => by
    obtain ⟨hv0, hvp⟩ := render_depth v (some k)
    obtain ⟨h0, hq⟩ := renderMembers_depth ms
    simp only [renderMembers]
    refine ⟨by simp [depth_append, h0, hv0], ?_⟩
    intro p hp
    rcases prefix_append_cases hp with h1 | ⟨q1, rfl, h1⟩
    · by_cases hn : p = []
      · subst hn
        simp [depth_nil]
      · by_cases hw : p = render (some k) v
        · rw [hw, hv0]
        · exact Int.le_of_lt (hvp p h1 hn hw)
    · have := hq q1 h1
      rw [depth_append, hv0]
      omega
theorem renderElems_depth : (es : List JValue) →
    depth (renderElems es) = 0 ∧ ∀ p, p <+: renderElems es → 0 ≤ depth p
  | [] => by
    simp only [renderElems]
    refine ⟨rfl, ?_⟩
    intro p hp
    rw [List.prefix_nil] at hp
    subst hp
    simp [depth_nil]
  | v :: es => by
    obtain ⟨hv0, hvp⟩ := render_depth v none
    obtain ⟨h0, hq⟩ := renderElems_depth es
    simp only [renderElems]
    refine ⟨by simp [depth_append, h0, hv0], ?_⟩
    intro p hp
    rcases prefix_append_cases hp with h1 | ⟨q1, rfl, h1⟩
    · by_cases hn : p = []
      · subst hn
        simp [depth_nil]
      · by_cases hw : p = render none v
        · rw [hw, hv0]
        · exact Int.le_of_lt (hvp p h1 hn hw)
    · have := hq q1 h1
      rw [depth_append, hv0]
      omega
end

theorem renderElems_append (a b : List JValue) :
    renderElems (a ++ b) = renderElems a ++ renderElems b := by
  induction a with
  | nil => simp [renderElems]
  | cons v a ih => simp [renderElems, ih]

/-- In the rendering of a sequence of values, a prefix that is balanced is the rendering of the
first values of the sequence. -/
theorem renderElems_zero : ∀ (es : List JValue) (p : List XToken),
    p <+: renderElems es → depth p = 0 → ∃ k, k ≤ es.length ∧ p = renderElems (es.take k)
  | [], p, hp, _ => by
    simp only [renderElems, List.prefix_nil] at hp
    subst hp
    exact ⟨0, Nat.le_refl _, rfl⟩
  | v :: es, p, hp, hd => by
    obtain ⟨hv0, hvp⟩ := render_depth v none
    simp only [renderElems] at hp
    rcases prefix_append_cases hp with h1 | ⟨q1, rfl, h1⟩
    · by_cases hn : p = []
      · subst hn
        exact ⟨0, Nat.zero_le _, rfl⟩
      · by_cases hw : p = render none v
        · subst hw
          exact ⟨1, by simp, by simp [renderElems]⟩
        · have := hvp p h1 hn hw
          omega
    · rw [depth_append, hv0] at hd
      obtain ⟨k, hk, rfl⟩ := renderElems_zero es q1 h1 (by omega)
      exact ⟨k + 1, by simpa using hk, by simp [renderElems]⟩

/-- The balanced prefixes of the rendering of a sequence of values are the renderings of its
first values, none of them included. -/
theorem renderElems_zero_iff (es : List JValue) (p : List XToken) (hp : p <+: renderElems es) :
    depth p = 0 ↔ ∃ k, k ≤ es.length ∧ p = renderElems (es.take k) := by
  constructor
  · exact renderElems_zero es p hp
  · rintro ⟨k, _, rfl⟩
    exact (renderElems_depth _).1

/-- The balanced prefixes of the rendering of one value are the empty one and the whole. -/
theorem render_zero_iff (v : JValue) (p : List XToken) (hp : p <+: render none v) :
    depth p = 0 ↔ (p = [] ∨ p = render none v) := by
  obtain ⟨hv0, hvp⟩ := render_depth v none
  constructor
  · intro hd
    by_cases hn : p = []
    · exact Or.inl hn
    · by_cases hw : p = render none v
      · exact Or.inr hw
      · have := hvp p hp hn hw
        omega
  · rintro (rfl | rfl)
    · rfl
    · exact hv0

end Balance

/-! ## Lemmas on reading back -/

theorem keyOf_nameAttr (key : Option String) : keyOf (nameAttr key) = key := by
  cases key <;> simp [keyOf, nameAttr]

mutual
/-- Reading back the rendering of a value adds that value, with its key, to the open element. -/
theorem parse_value : (v : JValue) → ∀ (key : Option String) (rest : List XToken) (top : Frame)
    (stack : List Frame),
    parseTokens (render key v ++ rest) top stack
      = parseTokens rest { top with children := (key, v) :: top.children } stack
  | JValue.object ms => by
    intro key rest top stack
    simp only [render, List.cons_append, List.append_assoc, List.nil_append, parseTokens,
      List.append_eq]
    rw [parse_members ms]
    simp [parseTokens, Frame.value, keyOf_nameAttr, List.map_reverse, Function.comp_def]
  | JValue.array es => by
    intro key rest top stack
    simp only [render, List.cons_append, List.append_assoc, List.nil_append, parseTokens,
      List.append_eq]
    rw [parse_elems es]
    simp [parseTokens, Frame.value, keyOf_nameAttr, List.map_reverse, Function.comp_def]
  | JValue.bool b => by
    intro key rest top stack
    cases b <;> simp [render, parseTokens, Frame.value, keyOf_nameAttr]
  | JValue.number t => by
    intro key rest top stack
    simp [render, parseTokens, Frame.value, keyOf_nameAttr]
  | JValue.string s => by
    intro key rest top stack
    simp [render, parseTokens, Frame.value, keyOf_nameAttr]
  | JValue.null => by
    intro key rest top stack
    simp [render, parseTokens, Frame.value, keyOf_nameAttr]
theorem parse_members : (ms : List (String × JValue)) → ∀ (rest : List XToken) (top : Frame)
    (stack : List Frame),
    parseTokens (renderMembers ms ++ rest) top stack
      = parseTokens rest
          { top with children := (ms.map fun p => (some p.1, p.2)).reverse ++ top.children } stack
  | [] => by
    intro rest top stack
    simp [renderMembers]
  | (k, v) :: ms => by
    intro rest top stack
    simp only [renderMembers, List.append_assoc]
    rw [parse_value v, parse_members ms]
    simp
theorem parse_elems : (es : List JValue) → ∀ (rest : List XToken) (top : Frame)
    (stack : List Frame),
    parseTokens (renderElems es ++ rest) top stack
      = parseTokens rest
          { top with children := (es.map fun v => (none, v)).reverse ++ top.children } stack
  | [] => by
    intro rest top stack
    simp [renderElems]
  | v :: es => by
    intro rest top stack
    simp only [renderElems, List.append_assoc]
    rw [parse_value v, parse_elems es]
    simp
end

/-- Reading back the rendering of a value gives the value. -/
theorem parseBack_render (v : JValue) : parseBack (render none v) = some v := by
  have h := parse_value v none [] { name := "", key := none, text := none, children := [] } []
  simp only [List.append_nil] at h
  simp [parseBack, h, parseTokens]

/-- The tokens the sink is passed over the tokens of one value. -/
theorem convert_value_sent (fmt : float64 → String) (v : JValue) (fuel : Nat)
    (hfuel : 3 * v.tokens.length < fuel) :
    (Convert (listEnv fmt) recorder fuel (reads v.tokens) []).sent = render none v := by
  have h := convert_values fmt recorder (fun _ _ => rfl) [v] [] fuel
    (Nat.lt_of_le_of_lt (renderElems_length_le [v]) (by simpa [elemsTokens] using hfuel))
  simp only [elemsTokens, List.append_nil, renderElems] at h
  rw [h]

/-! ## The claims -/

/-- C1. For every finite sequence of JSON values, `Convert` over the tokens of those values, with
a sink that accepts every token and a loop bound above three times the number of JSON tokens,
returns `nil`, and the tokens passed to the sink are exactly the reference rendering of each value
in turn: `render` gives an object as its start, its members each with the attribute `name` = key,
and its end; an array as its start, its elements without attribute, and its end; a boolean, number
or string as start, text, end; `null` as start, end. -/
theorem C1_convert_renders {τ : Type} (fmt : float64 → String)
    (enc : τ → XToken → Option Error × τ) (hacc : ∀ x tk, (enc x tk).1 = none)
    (vs : List JValue) (x : τ) (fuel : Nat) (hfuel : 3 * (elemsTokens vs).length < fuel) :
    Convert (listEnv fmt) enc fuel (reads (elemsTokens vs)) x
      = { status := Status.returned none, c := { decoder := [], types := [], data := none },
          x := feed enc x (renderElems vs), sent := renderElems vs } :=
  convert_values fmt enc hacc vs x fuel (Nat.lt_of_le_of_lt (renderElems_length_le vs) hfuel)

/-- C1, at the two documents of `TestComplex`: the tokens of `{"Name1":"String1"}` and of
`["Name1","String1"]`, into a sink that records what it is passed. -/
theorem C1_convert_renders_witness :
    (∀ (x : List XToken) (tk : XToken), (recorder x tk).1 = none)
    ∧ Convert (listEnv fun _ => "") recorder 13
        [Except.ok (JToken.Delim Delim.objOpen), Except.ok (JToken.string "Name1"),
          Except.ok (JToken.string "String1"), Except.ok (JToken.Delim Delim.objClose)] []
      = { status := Status.returned none, c := { decoder := [], types := [], data := none },
          x := [XToken.StartElement "object" [],
            XToken.StartElement "string" [{ Name := "name", Value := "Name1" }],
            XToken.CharData "String1", XToken.EndElement "string", XToken.EndElement "object"],
          sent := [XToken.StartElement "object" [],
            XToken.StartElement "string" [{ Name := "name", Value := "Name1" }],
            XToken.CharData "String1", XToken.EndElement "string", XToken.EndElement "object"] }
    ∧ Convert (listEnv fun _ => "") recorder 13
        [Except.ok (JToken.Delim Delim.arrOpen), Except.ok (JToken.string "Name1"),
          Except.ok (JToken.string "String1"), Except.ok (JToken.Delim Delim.arrClose)] []
      = { status := Status.returned none, c := { decoder := [], types := [], data := none },
          x := [XToken.StartElement "array" [],
            XToken.StartElement "string" [], XToken.CharData "Name1", XToken.EndElement "string",
            XToken.StartElement "string" [], XToken.CharData "String1", XToken.EndElement "string",
            XToken.EndElement "array"],
          sent := [XToken.StartElement "array" [],
            XToken.StartElement "string" [], XToken.CharData "Name1", XToken.EndElement "string",
            XToken.StartElement "string" [], XToken.CharData "String1", XToken.EndElement "string",
            XToken.EndElement "array"] } :=
  ⟨fun _ _ => rfl,
    C1_convert_renders (fun _ => "") recorder (fun _ _ => rfl)
      [JValue.object [("Name1", JValue.string "String1")]] [] 13 (by decide),
    C1_convert_renders (fun _ => "") recorder (fun _ _ => rfl)
      [JValue.array [JValue.string "Name1", JValue.string "String1"]] [] 13 (by decide)⟩

/-- C2. Round-trip shape: `parseBack` reads the token stream that `Convert` produces from the
tokens of any JSON value `v` back as `v` itself (nesting, member order, array order and member
names included), so a value `w` that converts to the same token stream as `v` is `v`. -/
theorem C2_round_trip (fmt : float64 → String) (v : JValue) (fuel : Nat)
    (hfuel : 3 * v.tokens.length < fuel) :
    parseBack (Convert (listEnv fmt) recorder fuel (reads v.tokens) []).sent = some v
    ∧ ∀ (w : JValue) (fuelw : Nat), 3 * w.tokens.length < fuelw →
        (Convert (listEnv fmt) recorder fuelw (reads w.tokens) []).sent
          = (Convert (listEnv fmt) recorder fuel (reads v.tokens) []).sent → w = v := by
  have hv := convert_value_sent fmt v fuel hfuel
  refine ⟨by rw [hv]; exact parseBack_render v, ?_⟩
  intro w fuelw hw heq
  rw [hv, convert_value_sent fmt w fuelw hw] at heq
  have h := parseBack_render w
  rw [heq, parseBack_render v] at h
  exact (Option.some.inj h).symm

/-- C2, at the document `{"Name1":"String1"}`. -/
theorem C2_round_trip_witness :
    3 * (JValue.object [("Name1", JValue.string "String1")]).tokens.length < 13
    ∧ parseBack (Convert (listEnv fun _ => "") recorder 13
        (reads (JValue.object [("Name1", JValue.string "String1")]).tokens) []).sent
      = some (JValue.object [("Name1", JValue.string "String1")]) :=
  ⟨by decide, (C2_round_trip (fun _ => "") _ 13 (by decide)).1⟩

/-- C3, as stated, fails: over a source that gives object-open and then end-of-input, `Convert`
returns `nil`, the result of a clean end of stream, with the start of the object passed to the
sink and `Object` still on the stack. -/
theorem C3_truncation_counterexample :
    Convert (listEnv fun _ => "") recorder 2 [Except.ok (JToken.Delim Delim.objOpen)] []
      = { status := Status.returned none,
          c := { decoder := [], types := [typObject], data := none },
          x := [XToken.StartElement "object" []],
          sent := [XToken.StartElement "object" []] } := by
  rfl

/-- C3, amended. When the source reports end-of-input on a read made with a container open on
top of the stack (the first read of the call, or the read after a member's key), `Token` returns
that `io.EOF` with the stack and the pending value as they were, and `Convert` returns `nil` as at
a clean end of stream: nothing more is passed to the sink and the stack is left non-empty. -/
theorem C3_eof_in_container {σ τ : Type} (E : Env σ) (enc : τ → XToken → Option Error × τ)
    (c : Converter σ) (d : σ) (x : τ) (sent : List XToken) (n : Nat)
    (hopen : c.types.getLast? = some typObject ∨ c.types.getLast? = some typArray)
    (heof : E.decoderToken c.decoder = (Except.error Error.EOF, d)
      ∨ ∃ k d1, c.types.getLast? = some typObject
          ∧ E.decoderToken c.decoder = (Except.ok (JToken.string k), d1)
          ∧ E.decoderToken d1 = (Except.error Error.EOF, d)) :
    c.Token E = some (Except.error Error.EOF, { c with decoder := d })
    ∧ Convert.loop E enc (n + 1) c x sent
        = { status := Status.returned none, c := { c with decoder := d }, x := x, sent := sent }
    ∧ ({ c with decoder := d } : Converter σ).types ≠ [] := by
  have ht : c.Token E = some (Except.error Error.EOF, { c with decoder := d }) := by
    rcases heof with h | ⟨k, d1, ho, h1, h2⟩
    · rcases hopen with ho | ho <;>
        simp [Converter.Token, Converter.readLoop, Converter.round, ho, h]
    · simp [Converter.Token, Converter.readLoop, Converter.round, ho, h1, h2]
  refine ⟨ht, by simp [Convert.loop, ht], ?_⟩
  intro h
  simp only at h
  rcases hopen with ho | ho <;> simp [h] at ho

/-- C3, amended, at an object just opened over a source at its end. -/
theorem C3_eof_in_container_witness :
    Converter.Token (listEnv fun _ => "")
        { decoder := [], types := [typObject], data := none }
      = some (Except.error Error.EOF, { decoder := [], types := [typObject], data := none })
    ∧ Convert.loop (listEnv fun _ => "") recorder 1
        { decoder := [], types := [typObject], data := none } [XToken.StartElement "object" []]
        [XToken.StartElement "object" []]
      = { status := Status.returned none,
          c := { decoder := [], types := [typObject], data := none },
          x := [XToken.StartElement "object" []],
          sent := [XToken.StartElement "object" []] } :=
  have h := C3_eof_in_container (listEnv fun _ => "") recorder
    { decoder := [], types := [typObject], data := none } [] [XToken.StartElement "object" []]
    [XToken.StartElement "object" []] 0 (Or.inl rfl) (Or.inl rfl)
  ⟨h.1, h.2.1⟩

/-- C4, as stated, fails: over the tokens of the two top-level values `1 2` the run completes,
and the first three tokens it passed on, `<number>1</number>`, have as many starts as ends
although three more tokens follow. -/
theorem C4_balance_counterexample :
    (Convert (listEnv fun _ => "") recorder 7
        [Except.ok (JToken.Number "1"), Except.ok (JToken.Number "2")] []).status
      = Status.returned none
    ∧ (Convert (listEnv fun _ => "") recorder 7
        [Except.ok (JToken.Number "1"), Except.ok (JToken.Number "2")] []).sent
      = [XToken.StartElement "number" [], XToken.CharData "1", XToken.EndElement "number"]
        ++ [XToken.StartElement "number" [], XToken.CharData "2", XToken.EndElement "number"]
    ∧ depth [XToken.StartElement "number" [], XToken.CharData "1", XToken.EndElement "number"] = 0 := by
  decide

/-- C4, amended. First, for every token source, sink and bound: in every prefix of the tokens
passed to the sink the number of start tokens minus the number of end tokens is at least 0; it
is the depth of the stack after the calls of `Token` that returned that prefix, so it is 0
exactly where the stack is empty. Second, over the tokens of a sequence of JSON values, with a
sink that accepts every token and a bound that lets the run complete: that difference is 0
exactly for the prefixes that are the rendering of the first `k` values, that is at the start
(`k = 0`) and after each complete top-level value. Third, over the tokens of one JSON value: the
difference is 0 only for the empty prefix and for the complete stream. -/
theorem C4_balance :
    (∀ (σ τ : Type) (E : Env σ) (enc : τ → XToken → Option Error × τ) (fuel : Nat) (j : σ)
        (x : τ) (p : List XToken), p <+: (Convert E enc fuel j x).sent →
      0 ≤ depth p
      ∧ ∃ cp, Converter.calls E p.length (Tokens j) = some (p.map Except.ok, cp)
          ∧ depth p = cp.types.length ∧ (depth p = 0 ↔ cp.types = []))
    ∧ (∀ (τ : Type) (fmt : float64 → String) (enc : τ → XToken → Option Error × τ),
        (∀ x tk, (enc x tk).1 = none) →
        ∀ (vs : List JValue) (x : τ) (fuel : Nat), 3 * (elemsTokens vs).length < fuel →
        (Convert (listEnv fmt) enc fuel (reads (elemsTokens vs)) x).status = Status.returned none
        ∧ (Convert (listEnv fmt) enc fuel (reads (elemsTokens vs)) x).sent = renderElems vs
        ∧ ∀ p, p <+: (Convert (listEnv fmt) enc fuel (reads (elemsTokens vs)) x).sent →
            (depth p = 0 ↔ ∃ k, k ≤ vs.length ∧ p = renderElems (vs.take k)))
    ∧ (∀ (τ : Type) (fmt : float64 → String) (enc : τ → XToken → Option Error × τ),
        (∀ x tk, (enc x tk).1 = none) →
        ∀ (v : JValue) (x : τ) (fuel : Nat), 3 * v.tokens.length < fuel →
        (Convert (listEnv fmt) enc fuel (reads v.tokens) x).status = Status.returned none
        ∧ ∀ p, p <+: (Convert (listEnv fmt) enc fuel (reads v.tokens) x).sent →
            (depth p = 0 ↔
              (p = [] ∨ p = (Convert (listEnv fmt) enc fuel (reads v.tokens) x).sent))) := by
  refine ⟨?_, ?_, ?_⟩
  · intro σ τ E enc fuel j x p hp
    obtain ⟨cp, hcp⟩ := convert_prefix_calls E enc fuel j x p hp
    have hd := calls_depth E j p.length cp _ hcp
    rw [emitted_map_ok] at hd
    refine ⟨by rw [hd]; exact Int.natCast_nonneg _, cp, hcp, hd, ?_⟩
    rw [hd]
    simp
  · intro τ fmt enc hacc vs x fuel hfuel
    have hrun := convert_values fmt enc hacc vs x fuel
      (Nat.lt_of_le_of_lt (renderElems_length_le vs) hfuel)
    rw [hrun]
    exact ⟨rfl, rfl, fun p hp => renderElems_zero_iff vs p hp⟩
  · intro τ fmt enc hacc v x fuel hfuel
    have hrun := convert_values fmt enc hacc [v] x fuel
      (Nat.lt_of_le_of_lt (renderElems_length_le [v]) (by simpa [elemsTokens] using hfuel))
    simp only [elemsTokens, renderElems, List.append_nil] at hrun
    rw [hrun]
    exact ⟨rfl, fun p hp => render_zero_iff v p hp⟩

/-- C4, amended, at the run over `1 2`: its prefix `<number>1</number>` is balanced, the stack
is empty after the three calls that returned it, and it is the rendering of the first value; and
at the run over `1` alone, where the first token is a prefix and so has an element open. -/
theorem C4_balance_witness :
    [XToken.StartElement "number" [], XToken.CharData "1", XToken.EndElement "number"]
      <+: (Convert (listEnv fun _ => "") recorder 7
        [Except.ok (JToken.Number "1"), Except.ok (JToken.Number "2")] []).sent
    ∧ (0 ≤ depth [XToken.StartElement "number" [], XToken.CharData "1", XToken.EndElement "number"]
      ∧ ∃ cp, Converter.calls (listEnv fun _ => "") 3
          (Tokens [Except.ok (JToken.Number "1"), Except.ok (JToken.Number "2")])
        = some ([Except.ok (XToken.StartElement "number" []), Except.ok (XToken.CharData "1"),
            Except.ok (XToken.EndElement "number")], cp)
        ∧ depth [XToken.StartElement "number" [], XToken.CharData "1", XToken.EndElement "number"]
          = cp.types.length
        ∧ (depth [XToken.StartElement "number" [], XToken.CharData "1", XToken.EndElement "number"]
          = 0 ↔ cp.types = []))
    ∧ (∃ k, k ≤ [JValue.number "1", JValue.number "2"].length
        ∧ [XToken.StartElement "number" [], XToken.CharData "1", XToken.EndElement "number"]
          = renderElems ([JValue.number "1", JValue.number "2"].take k))
    ∧ ([XToken.StartElement "number" []]
        <+: (Convert (listEnv fun _ => "") recorder 4 (reads (JValue.number "1").tokens) []).sent
      ∧ ¬ depth [XToken.StartElement "number" []] = 0) :=
  have hp : [XToken.StartElement "number" [], XToken.CharData "1", XToken.EndElement "number"]
      <+: (Convert (listEnv fun _ => "") recorder 7
        [Except.ok (JToken.Number "1"), Except.ok (JToken.Number "2")] []).sent :=
    ⟨[XToken.StartElement "number" [], XToken.CharData "2", XToken.EndElement "number"], rfl⟩
  have hp1 : [XToken.StartElement "number" []]
      <+: (Convert (listEnv fun _ => "") recorder 4 (reads (JValue.number "1").tokens) []).sent :=
    ⟨[XToken.CharData "1", XToken.EndElement "number"], rfl⟩
  ⟨hp, C4_balance.1 _ _ (listEnv fun _ => "") recorder 7 _ [] _ hp,
    ((C4_balance.2.1 _ (fun _ => "") recorder (fun _ _ => rfl)
      [JValue.number "1", JValue.number "2"] [] 7 (by decide)).2.2 _ hp).1 (by decide),
    hp1,
    fun h0 => absurd
      (((C4_balance.2.2 _ (fun _ => "") recorder (fun _ _ => rfl)
        (JValue.number "1") [] 4 (by decide)).2 _ hp1).1 h0)
      (by decide)⟩

/-- C5. Attribute rule: when a call of `Token` returns a start-of-element token, its attribute
list is the one attribute `name` = `k` exactly when the top of the stack at the start of the call
was `Object` and the first token read in the call was the string `k`, taken as the key (the empty
key included); in every other case the list is empty, so with the stack empty or an array on top
there is no attribute. -/
theorem C5_attribute_rule {σ : Type} (E : Env σ) (c c1 : Converter σ) (n : String)
    (attr : List Attr) (h : c.Token E = some (Except.ok (XToken.StartElement n attr), c1)) :
    (∀ k, attr = [{ Name := "name", Value := k }] ↔
        (c.types.getLast? = some typObject
          ∧ (E.decoderToken c.decoder).1 = Except.ok (JToken.string k)))
    ∧ ((¬ ∃ k, c.types.getLast? = some typObject
          ∧ (E.decoderToken c.decoder).1 = Except.ok (JToken.string k)) → attr = [])
    ∧ (c.types = [] ∨ c.types.getLast? = some typArray → attr = []) := by
  rcases Token_ok_cases E c c1 _ h with
    ⟨_, _, _, _, _, htk, _⟩ | ⟨_, _, _, _, htk, _⟩
    | ⟨_, typ, key, tok, htk, _, _, _, hkey⟩ | ⟨_, _, _, _, htk, _⟩
  · cases htk
  · cases htk
  · simp only [XToken.StartElement.injEq] at htk
    obtain ⟨_, rfl⟩ := htk
    have hnone : (¬ ∃ k, c.types.getLast? = some typObject
          ∧ (E.decoderToken c.decoder).1 = Except.ok (JToken.string k)) → nameAttr key = [] := by
      intro hno
      cases key with
      | none => rfl
      | some k0 => exact absurd ⟨k0, (hkey k0).1 rfl⟩ hno
    refine ⟨?_, hnone, ?_⟩
    · intro k
      rw [← hkey k]
      cases key with
      | none => simp [nameAttr]
      | some k0 => simp [nameAttr]
    · intro hc
      apply hnone
      rintro ⟨k, ho, _⟩
      rcases hc with hc | hc
      · simp [hc] at ho
      · rw [hc] at ho
        cases ho
  · cases htk

/-- C5, at a member with the empty key: inside an object, over the reads `""`, `"v"`. -/
theorem C5_attribute_rule_witness :
    Converter.Token (listEnv fun _ => "")
        { decoder := [Except.ok (JToken.string ""), Except.ok (JToken.string "v")],
          types := [typObject], data := none }
      = some (Except.ok (XToken.StartElement "string" [{ Name := "name", Value := "" }]),
          { decoder := [], types := [typObject, typString], data := some "v" })
    ∧ ([{ Name := "name", Value := "" }] = [({ Name := "name", Value := "" } : Attr)] ↔
        (([typObject] : List ttype).getLast? = some typObject
          ∧ (listDecoder [Except.ok (JToken.string ""), Except.ok (JToken.string "v")]).1
            = Except.ok (JToken.string ""))) :=
  ⟨rfl, (C5_attribute_rule (listEnv fun _ => "")
    { decoder := [Except.ok (JToken.string ""), Except.ok (JToken.string "v")],
      types := [typObject], data := none }
    { decoder := [], types := [typObject, typString], data := some "v" }
    "string" [{ Name := "name", Value := "" }] rfl).1 ""⟩

/-- C6. Scalar atomicity: when a call of `Token` returns the start-of-element token of a
boolean, a number or a string, that element is made from one JSON token `tok`: the first token
read in the call when no key was taken, and, when the first token was taken as the key (a string
read with `Object` on top), the token read after it, never the key. That token has a text, the
next call returns exactly that text as character data, an empty text included, and the call
after it the end-of-element token of the same name, which leaves the stack as it was before the
element; for `null` the next call returns the end token directly. -/
theorem C6_scalar_atomicity {σ : Type} (E : Env σ) (c c1 : Converter σ) (n : String)
    (attr : List Attr) (h : c.Token E = some (Except.ok (XToken.StartElement n attr), c1)) :
    (n = "boolean" ∨ n = "number" ∨ n = "string" →
      ∃ tok typ text,
        ((¬ (c.types.getLast? = some typObject
              ∧ ∃ k, (E.decoderToken c.decoder).1 = Except.ok (JToken.string k))
            ∧ (E.decoderToken c.decoder).1 = Except.ok tok)
          ∨ ((c.types.getLast? = some typObject
              ∧ ∃ k, (E.decoderToken c.decoder).1 = Except.ok (JToken.string k))
            ∧ (E.decoderToken (E.decoderToken c.decoder).2).1 = Except.ok tok))
        ∧ scalarOf E tok = some (typ, some text) ∧ typ.String = n
        ∧ c1.data = some text
        ∧ c1.Token E = some (Except.ok (XToken.CharData text), { c1 with data := none })
        ∧ ({ c1 with data := none } : Converter σ).Token E
            = some (Except.ok (XToken.EndElement n),
                { decoder := c1.decoder, types := c.types, data := none }))
    ∧ (n = "null" →
      c1.Token E = some (Except.ok (XToken.EndElement "null"),
        { decoder := c1.decoder, types := c.types, data := none })) := by
  rcases Token_ok_cases E c c1 _ h with
    ⟨_, _, _, _, _, htk, _⟩ | ⟨_, _, _, _, htk, _⟩
    | ⟨_, typ, key, tok, htk, hty, hread, hkind, hkey⟩ | ⟨_, _, _, _, htk, _⟩
  · cases htk
  · cases htk
  · simp only [XToken.StartElement.injEq] at htk
    obtain ⟨rfl, _⟩ := htk
    have hread2 : (¬ (c.types.getLast? = some typObject
              ∧ ∃ k, (E.decoderToken c.decoder).1 = Except.ok (JToken.string k))
            ∧ (E.decoderToken c.decoder).1 = Except.ok tok)
          ∨ ((c.types.getLast? = some typObject
              ∧ ∃ k, (E.decoderToken c.decoder).1 = Except.ok (JToken.string k))
            ∧ (E.decoderToken (E.decoderToken c.decoder).2).1 = Except.ok tok) := by
      rcases hread with ⟨hk, h1⟩ | ⟨hk, h1⟩
      · refine Or.inl ⟨?_, h1⟩
        rintro ⟨ho, k, hs⟩
        have := (hkey k).2 ⟨ho, hs⟩
        rw [hk] at this
        cases this
      · refine Or.inr ⟨?_, h1⟩
        cases key with
        | none => exact absurd rfl hk
        | some k => exact ⟨((hkey k).1 rfl).1, k, ((hkey k).1 rfl).2⟩
    rcases hkind with ⟨⟨_, rfl⟩ | ⟨_, rfl⟩, _⟩ | hs
    · exact ⟨fun hn => by simp [ttype.String] at hn, fun hn => by simp [ttype.String] at hn⟩
    · exact ⟨fun hn => by simp [ttype.String] at hn, fun hn => by simp [ttype.String] at hn⟩
    · have hfin := fun h2 => scalar_finish E c1 c.types typ h2 hty
      cases tok with
      | Delim dl => simp [scalarOf] at hs
      | bool b =>
        simp only [scalarOf, Option.some.injEq, Prod.mk.injEq] at hs
        obtain ⟨rfl, hd⟩ := hs
        refine ⟨fun _ => ⟨_, typBool, _, hread2, rfl, rfl, hd.symm,
          (hfin (by decide)).1 _ hd.symm, (hfin (by decide)).2⟩,
          fun hn => by simp [ttype.String] at hn⟩
      | float64 f =>
        simp only [scalarOf, Option.some.injEq, Prod.mk.injEq] at hs
        obtain ⟨rfl, hd⟩ := hs
        refine ⟨fun _ => ⟨_, typNumber, _, hread2, rfl, rfl, hd.symm,
          (hfin (by decide)).1 _ hd.symm, (hfin (by decide)).2⟩,
          fun hn => by simp [ttype.String] at hn⟩
      | Number s =>
        simp only [scalarOf, Option.some.injEq, Prod.mk.injEq] at hs
        obtain ⟨rfl, hd⟩ := hs
        refine ⟨fun _ => ⟨_, typNumber, _, hread2, rfl, rfl, hd.symm,
          (hfin (by decide)).1 _ hd.symm, (hfin (by decide)).2⟩,
          fun hn => by simp [ttype.String] at hn⟩
      | string s =>
        simp only [scalarOf, Option.some.injEq, Prod.mk.injEq] at hs
        obtain ⟨rfl, hd⟩ := hs
        refine ⟨fun _ => ⟨_, typString, _, hread2, rfl, rfl, hd.symm,
          (hfin (by decide)).1 _ hd.symm, (hfin (by decide)).2⟩,
          fun hn => by simp [ttype.String] at hn⟩
      | null =>
        simp only [scalarOf, Option.some.injEq, Prod.mk.injEq] at hs
        obtain ⟨rfl, hd⟩ := hs
        refine ⟨fun hn => by simp [ttype.String] at hn, fun _ => ?_⟩
        have h2 := (hfin (by decide)).2
        have hc1 : ({ c1 with data := none } : Converter σ) = c1 := by
          cases c1
          simp only at hd
          simp [← hd]
        rw [hc1] at h2
        exact h2
  · cases htk

/-- C6, at the member `"k": ""` of an object: the key is taken, the element is made from the
token after it, and the next calls return that token's text, the empty text, and the end. -/
theorem C6_scalar_atomicity_witness :
    Converter.Token (listEnv fun _ => "")
        { decoder := reads [JToken.string "k", JToken.string ""], types := [typObject],
          data := none }
      = some (Except.ok (XToken.StartElement "string" [{ Name := "name", Value := "k" }]),
          { decoder := [], types := [typObject, typString], data := some "" })
    ∧ (∃ tok typ text,
        ((¬ (([typObject] : List ttype).getLast? = some typObject
              ∧ ∃ k, (listDecoder (reads [JToken.string "k", JToken.string ""])).1
                  = Except.ok (JToken.string k))
            ∧ (listDecoder (reads [JToken.string "k", JToken.string ""])).1 = Except.ok tok)
          ∨ ((([typObject] : List ttype).getLast? = some typObject
              ∧ ∃ k, (listDecoder (reads [JToken.string "k", JToken.string ""])).1
                  = Except.ok (JToken.string k))
            ∧ (listDecoder (listDecoder (reads [JToken.string "k", JToken.string ""])).2).1
                = Except.ok tok))
        ∧ scalarOf (listEnv fun _ => "") tok = some (typ, some text) ∧ typ.String = "string"
        ∧ some "" = some text
        ∧ Converter.Token (listEnv fun _ => "")
            { decoder := [], types := [typObject, typString], data := some "" }
          = some (Except.ok (XToken.CharData text),
              { decoder := [], types := [typObject, typString], data := none })
        ∧ Converter.Token (listEnv fun _ => "")
            { decoder := [], types := [typObject, typString], data := none }
          = some (Except.ok (XToken.EndElement "string"),
              { decoder := [], types := [typObject], data := none }))
    ∧ Converter.Token (listEnv fun _ => "")
        { decoder := [], types := [typObject, typString], data := some "" }
      = some (Except.ok (XToken.CharData ""),
          { decoder := [], types := [typObject, typString], data := none }) :=
  ⟨rfl, (C6_scalar_atomicity (listEnv fun _ => "")
    { decoder := reads [JToken.string "k", JToken.string ""], types := [typObject],
      data := none }
    { decoder := [], types := [typObject, typString], data := some "" } "string"
    [{ Name := "name", Value := "k" }] rfl).1 (Or.inr (Or.inr rfl)), rfl⟩

/-- C7. Stack invariant and well-nesting: after every sequence of calls of `Token` from a fresh
converter, over any token source, the names of the kinds on the stack are the names of the
elements whose start token has been returned and whose end token has not, outermost first; so
an end-of-element token returned by the next call has the name of the innermost open element,
whichever close delimiter was read. -/
theorem C7_stack_invariant {σ : Type} (E : Env σ) (j : σ) (k : Nat) (c : Converter σ)
    (rs : List (Except Error XToken)) (h : Converter.calls E k (Tokens j) = some (rs, c)) :
    c.types.map ttype.String = openNames (emitted rs)
    ∧ ∀ n c1, c.Token E = some (Except.ok (XToken.EndElement n), c1) →
        (openNames (emitted rs)).getLast? = some n := by
  have hn := calls_names E j k c rs h
  refine ⟨hn, ?_⟩
  intro n c1 ht
  rw [← hn]
  exact Token_end_name E c c1 n ht

/-- C7, at an array closed by `}`: after the start of the array the stack is `[Array]`, the open
elements are `array`, and the end token the object-close delimiter brings has the name `array`. -/
theorem C7_stack_invariant_witness :
    Converter.calls (listEnv fun _ => "") 1
        (Tokens [Except.ok (JToken.Delim Delim.arrOpen), Except.ok (JToken.Delim Delim.objClose)])
      = some ([Except.ok (XToken.StartElement "array" [])],
          { decoder := [Except.ok (JToken.Delim Delim.objClose)], types := [typArray],
            data := none })
    ∧ Converter.Token (listEnv fun _ => "")
        { decoder := [Except.ok (JToken.Delim Delim.objClose)], types := [typArray],
          data := none }
      = some (Except.ok (XToken.EndElement "array"),
          { decoder := [], types := [], data := none })
    ∧ ([typArray] : List ttype).map ttype.String
      = openNames (emitted [Except.ok (XToken.StartElement "array" [])])
    ∧ (openNames (emitted [Except.ok (XToken.StartElement "array" [])])).getLast?
      = some "array" :=
  have h := C7_stack_invariant (listEnv fun _ => "")
    [Except.ok (JToken.Delim Delim.arrOpen), Except.ok (JToken.Delim Delim.objClose)] 1
    { decoder := [Except.ok (JToken.Delim Delim.objClose)], types := [typArray], data := none }
    [Except.ok (XToken.StartElement "array" [])] rfl
  ⟨rfl, rfl, h.1, h.2 "array" { decoder := [], types := [], data := none } rfl⟩

/-- C8. Pending-scalar invariant: in every state reached from a fresh converter by calls of
`Token`, over any token source, if the pending value is present then the stack is non-empty, its
top is `Boolean`, `Number` or `String`, and the last token returned is the start token of that
element (its character data is still to come); the pending value is absent whenever the stack is
empty or has `Object` or `Array` on top. -/
theorem C8_pending_invariant {σ : Type} (E : Env σ) (j : σ) (k : Nat) (c : Converter σ)
    (rs : List (Except Error XToken)) (h : Converter.calls E k (Tokens j) = some (rs, c)) :
    (∀ s, c.data = some s → ∃ t attr, c.types.getLast? = some t
      ∧ (t = typBool ∨ t = typNumber ∨ t = typString)
      ∧ (emitted rs).getLast? = some (XToken.StartElement t.String attr))
    ∧ (c.types = [] ∨ c.types.getLast? = some typObject ∨ c.types.getLast? = some typArray →
        c.data = none) := by
  have hp := calls_pending E j k c rs h
  refine ⟨hp, ?_⟩
  intro hc
  apply hp.none_of_reading
  rcases hc with h0 | h0 | h0
  · exact Or.inl (by simp [h0])
  · exact Or.inr (Or.inl h0)
  · exact Or.inr (Or.inr h0)

/-- C8, after the start token of the member `"a": 1` of an object. -/
theorem C8_pending_invariant_witness :
    Converter.calls (listEnv fun _ => "") 2
        (Tokens [Except.ok (JToken.Delim Delim.objOpen), Except.ok (JToken.string "a"),
          Except.ok (JToken.Number "1")])
      = some ([Except.ok (XToken.StartElement "object" []),
            Except.ok (XToken.StartElement "number" [{ Name := "name", Value := "a" }])],
          { decoder := [], types := [typObject, typNumber], data := some "1" })
    ∧ ∃ t attr, ([typObject, typNumber] : List ttype).getLast? = some t
      ∧ (t = typBool ∨ t = typNumber ∨ t = typString)
      ∧ (emitted [Except.ok (XToken.StartElement "object" []),
            Except.ok (XToken.StartElement "number" [{ Name := "name", Value := "a" }])]).getLast?
          = some (XToken.StartElement t.String attr) :=
  ⟨rfl, (C8_pending_invariant (listEnv fun _ => "")
    [Except.ok (JToken.Delim Delim.objOpen), Except.ok (JToken.string "a"),
      Except.ok (JToken.Number "1")] 2
    { decoder := [], types := [typObject, typNumber], data := some "1" }
    [Except.ok (XToken.StartElement "object" []),
      Except.ok (XToken.StartElement "number" [{ Name := "name", Value := "a" }])] rfl).1 "1" rfl⟩

/-- C9. With a scalar kind `t` on top of the stack a call of `Token` does not consult the JSON
source (it returns the same whatever the source is) and leaves the decoder as it is: with a
pending value `s` it returns `s` as character data, clears the pending value and leaves the stack
alone; with none it returns the end-of-element token of `t` and pops that one entry. -/
theorem C9_scalar_top {σ : Type} (E : Env σ) (c : Converter σ) (t : ttype)
    (ht : c.types.getLast? = some t) (hs : t ≠ typObject ∧ t ≠ typArray) :
    (∀ s, c.data = some s →
      c.Token E = some (Except.ok (XToken.CharData s), { c with data := none }))
    ∧ (c.data = none →
      c.Token E = some (Except.ok (XToken.EndElement t.String),
        { c with types := c.types.dropLast }))
    ∧ ∀ E2 : Env σ, c.Token E2 = c.Token E := by
  obtain ⟨h0, h1⟩ := hs
  match t, h0, h1, ht with
  | m + 2, _, _, ht =>
    refine ⟨?_, ?_, ?_⟩
    · intro s hd
      simp [Converter.Token, ht, hd]
    · intro hd
      simp [Converter.Token, ht, hd, Converter.outputEnd]
    · intro E2
      simp [Converter.Token, ht]

/-- C9, inside the string element `"A"` of an array, with reads still to come. -/
theorem C9_scalar_top_witness :
    ([typArray, typString] : List ttype).getLast? = some typString
    ∧ (typString ≠ typObject ∧ typString ≠ typArray)
    ∧ Converter.Token (listEnv fun _ => "")
        { decoder := [Except.ok (JToken.Delim Delim.arrClose)], types := [typArray, typString],
          data := some "A" }
      = some (Except.ok (XToken.CharData "A"),
          { decoder := [Except.ok (JToken.Delim Delim.arrClose)],
            types := [typArray, typString], data := none })
    ∧ Converter.Token (listEnv fun _ => "")
        { decoder := [Except.ok (JToken.Delim Delim.arrClose)], types := [typArray, typString],
          data := none }
      = some (Except.ok (XToken.EndElement "string"),
          { decoder := [Except.ok (JToken.Delim Delim.arrClose)], types := [typArray],
            data := none }) :=
  ⟨rfl, by decide,
    (C9_scalar_top (listEnv fun _ => "")
      { decoder := [Except.ok (JToken.Delim Delim.arrClose)], types := [typArray, typString],
        data := some "A" } typString rfl (by decide)).1 "A" rfl,
    (C9_scalar_top (listEnv fun _ => "")
      { decoder := [Except.ok (JToken.Delim Delim.arrClose)], types := [typArray, typString],
        data := none } typString rfl (by decide)).2.1 rfl⟩

/-- C10. Driver contract, for every token source, sink and bound. The tokens `tks` passed to the
sink are, in order, what the first calls of `Token` returned, and the status of the run says how
it went on from the state `ck` after those calls: `Convert` returns `nil` only when the next call
reports `io.EOF`; it returns an error `e` only when the next call returns `e`, which is not
`io.EOF`, or when the sink rejects the last token with `e`, and then no further call of `Token`
is made; it panics only when the next call does; and it is still running only when the bound is
used up. The other way round: once the sink has accepted what the first calls returned, an error
from the next call ends the run with that error, `io.EOF` as `nil`, and a token the sink rejects
makes the run return the sink's error, the converter left as that call left it. -/
theorem C10_driver_contract {σ τ : Type} (E : Env σ) (enc : τ → XToken → Option Error × τ)
    (fuel : Nat) (j : σ) (x : τ) :
    (∃ (tks : List XToken) (ck : Converter σ),
      tks.length ≤ fuel
      ∧ Converter.calls E tks.length (Tokens j) = some (tks.map Except.ok, ck)
      ∧ (Convert E enc fuel j x).sent = tks
      ∧ match (Convert E enc fuel j x).status with
        | Status.returned none =>
          Accepted enc x tks ∧ (Convert E enc fuel j x).x = feed enc x tks
          ∧ ck.Token E = some (Except.error Error.EOF, (Convert E enc fuel j x).c)
        | Status.returned (some e) =>
          (Accepted enc x tks ∧ (Convert E enc fuel j x).x = feed enc x tks
            ∧ e ≠ Error.EOF
            ∧ ck.Token E = some (Except.error e, (Convert E enc fuel j x).c))
          ∨ (∃ init tk, tks = init ++ [tk] ∧ Accepted enc x init
            ∧ enc (feed enc x init) tk = (some e, (Convert E enc fuel j x).x)
            ∧ (Convert E enc fuel j x).c = ck)
        | Status.panicked =>
          Accepted enc x tks ∧ (Convert E enc fuel j x).x = feed enc x tks
          ∧ ck.Token E = none ∧ (Convert E enc fuel j x).c = ck
        | Status.running =>
          tks.length = fuel ∧ Accepted enc x tks
          ∧ (Convert E enc fuel j x).x = feed enc x tks
          ∧ (Convert E enc fuel j x).c = ck)
    ∧ ∀ (tks : List XToken) (ck : Converter σ),
        Converter.calls E tks.length (Tokens j) = some (tks.map Except.ok, ck) →
        Accepted enc x tks → tks.length < fuel →
        (∀ e c1, ck.Token E = some (Except.error e, c1) →
          Convert E enc fuel j x
            = { status := Status.returned (if e = Error.EOF then none else some e),
                c := c1, x := feed enc x tks, sent := tks })
        ∧ (∀ tk c1 e x1, ck.Token E = some (Except.ok tk, c1) →
            enc (feed enc x tks) tk = (some e, x1) →
          Convert E enc fuel j x
            = { status := Status.returned (some e), c := c1, x := x1, sent := tks ++ [tk] }) := by
  constructor
  · obtain ⟨tks, ck, hlen, hcalls, hsent, hst⟩ := loop_trace E enc fuel (Tokens j) x []
    exact ⟨tks, ck, hlen, hcalls, by simpa [Convert, Tokens] using hsent, hst⟩
  · intro tks ck hcalls hacc hlt
    obtain ⟨n, rfl⟩ : ∃ n, fuel = (n + 1) + tks.length := ⟨fuel - tks.length - 1, by omega⟩
    have hf := loop_forward E enc tks (Tokens j) ck x [] (n + 1) hcalls hacc
    constructor
    · intro e c1 ht
      rw [Convert, ← Tokens, hf]
      by_cases he : e = Error.EOF <;> simp [Convert.loop, ht, he]
    · intro tk c1 e x1 ht hx
      rw [Convert, ← Tokens, hf]
      simp [Convert.loop, ht, hx]

/-- C10, at a sink that rejects the second token of the run over `[`, `1`: the run returns the
sink's error with both tokens passed on and the converter as the second call left it. -/
theorem C10_driver_contract_witness :
    Converter.calls (listEnv fun _ => "") 1
        (Tokens [Except.ok (JToken.Delim Delim.arrOpen), Except.ok (JToken.Number "1")])
      = some ([Except.ok (XToken.StartElement "array" [])],
          { decoder := [Except.ok (JToken.Number "1")], types := [typArray], data := none })
    ∧ Accepted (limited 1) [] [XToken.StartElement "array" []]
    ∧ Convert (listEnv fun _ => "") (limited 1) 5
        [Except.ok (JToken.Delim Delim.arrOpen), Except.ok (JToken.Number "1")] []
      = { status := Status.returned (some (Error.other "sink full")),
          c := { decoder := [], types := [typArray, typNumber], data := some "1" },
          x := [XToken.StartElement "array" []],
          sent := [XToken.StartElement "array" []] ++ [XToken.StartElement "number" []] } :=
  ⟨rfl, ⟨rfl, trivial⟩,
    ((C10_driver_contract (listEnv fun _ => "") (limited 1) 5
      [Except.ok (JToken.Delim Delim.arrOpen), Except.ok (JToken.Number "1")] []).2
      [XToken.StartElement "array" []]
      { decoder := [Except.ok (JToken.Number "1")], types := [typArray], data := none }
      rfl ⟨rfl, trivial⟩ (by decide)).2
      (XToken.StartElement "number" [])
      { decoder := [], types := [typArray, typNumber], data := some "1" }
      (Error.other "sink full") [XToken.StartElement "array" []] rfl rfl⟩

/-- C11. Source errors are surfaced at once: with the stack empty or a container on top, when
the source fails with `e` on a read made in a call of `Token` (the first read, or the read after
a member's key), the call returns exactly `e` and no token, and the stack and the pending value
are after the call what they were before it; only the decoder has moved on. -/
theorem C11_source_error {σ : Type} (E : Env σ) (c : Converter σ) (e : Error) (d : σ)
    (hr : Reading c)
    (herr : E.decoderToken c.decoder = (Except.error e, d)
      ∨ ∃ k d1, c.types.getLast? = some typObject
          ∧ E.decoderToken c.decoder = (Except.ok (JToken.string k), d1)
          ∧ E.decoderToken d1 = (Except.error e, d)) :
    c.Token E = some (Except.error e, { c with decoder := d }) := by
  rcases herr with h | ⟨k, d1, ho, h1, h2⟩
  · rcases hr with ho | ho | ho <;>
      simp [Converter.Token, Converter.readLoop, Converter.round, ho, h]
  · simp [Converter.Token, Converter.readLoop, Converter.round, ho, h1, h2]

/-- C11, inside an object whose source fails after the key `"k"`. -/
theorem C11_source_error_witness :
    Reading (Converter.mk [Except.ok (JToken.string "k"), Except.error (Error.other "bad")]
        [typObject] none)
    ∧ Converter.Token (listEnv fun _ => "")
        { decoder := [Except.ok (JToken.string "k"), Except.error (Error.other "bad")],
          types := [typObject], data := none }
      = some (Except.error (Error.other "bad"),
          { decoder := [], types := [typObject], data := none }) :=
  ⟨Or.inr (Or.inl rfl),
    C11_source_error (listEnv fun _ => "")
      { decoder := [Except.ok (JToken.string "k"), Except.error (Error.other "bad")],
        types := [typObject], data := none } (Error.other "bad") [] (Or.inr (Or.inl rfl))
      (Or.inr ⟨"k", [Except.error (Error.other "bad")], rfl, rfl, rfl⟩)⟩

/-- C12, as stated, fails: after the start of an object, a state reached from a fresh converter,
the stack is not empty and yet `Token` reports `io.EOF` when the source does. -/
theorem C12_end_of_stream_counterexample :
    Converter.calls (listEnv fun _ => "") 1 (Tokens [Except.ok (JToken.Delim Delim.objOpen)])
      = some ([Except.ok (XToken.StartElement "object" [])],
          { decoder := [], types := [typObject], data := none })
    ∧ Converter.Token (listEnv fun _ => "") { decoder := [], types := [typObject], data := none }
      = some (Except.error Error.EOF, { decoder := [], types := [typObject], data := none })
    ∧ ([typObject] : List ttype) ≠ [] :=
  ⟨rfl, rfl, by decide⟩

/-- C12, amended. In every state, `Token` reports `io.EOF` exactly when the stack is empty or has
a container on top and the source reports `io.EOF` on a read made in the call: the first read, or
the read after a member's key. So it does with the stack empty and the source at its end, and it
does as well with a container still open. -/
theorem C12_end_of_stream {σ : Type} (E : Env σ) (c : Converter σ) :
    ((∃ c1, c.Token E = some (Except.error Error.EOF, c1)) ↔
      (Reading c
        ∧ ((E.decoderToken c.decoder).1 = Except.error Error.EOF
          ∨ ∃ k, c.types.getLast? = some typObject
              ∧ (E.decoderToken c.decoder).1 = Except.ok (JToken.string k)
              ∧ (E.decoderToken (E.decoderToken c.decoder).2).1 = Except.error Error.EOF)))
    ∧ (c.types = [] → (E.decoderToken c.decoder).1 = Except.error Error.EOF →
        c.Token E = some (Except.error Error.EOF,
          { c with decoder := (E.decoderToken c.decoder).2 })) := by
  constructor
  · constructor
    · rintro ⟨c1, h⟩
      obtain ⟨hr, d0, hd0, hread, _, _⟩ := Token_error_cases E c c1 Error.EOF h
      refine ⟨hr, ?_⟩
      rcases hd0 with rfl | ⟨k, ho, hk⟩
      · exact Or.inl (by rw [hread])
      · exact Or.inr ⟨k, ho, by rw [hk], by rw [hk]; simp only; rw [hread]⟩
    · rintro ⟨hr, herr⟩
      exact Token_read_error E c Error.EOF hr herr
  · intro h0 he
    rcases hd : E.decoderToken c.decoder with ⟨r, d⟩
    rw [hd] at he
    simp only at he
    subst he
    simp [Converter.Token, Converter.readLoop, Converter.round, h0, hd]

/-- C12, amended, at a fresh converter over a source at its end. -/
theorem C12_end_of_stream_witness :
    Converter.Token (listEnv fun _ => "") { decoder := [], types := [], data := none }
      = some (Except.error Error.EOF, { decoder := [], types := [], data := none }) :=
  (C12_end_of_stream (listEnv fun _ => "") { decoder := [], types := [], data := none }).2
    rfl rfl

/-- C13. Numeric text is kept verbatim: where the converter has to read and the value read is a
number delivered as its text `s` (a `json.Number`; the first read, or the read after a member's
key), `Token` returns the start token of a `number` element and sets the pending value to exactly
`s`, and the next call returns exactly `s` as character data. -/
theorem C13_number_text {σ : Type} (E : Env σ) (c : Converter σ) (s : String) (d : σ)
    (hr : Reading c)
    (hread : (E.decoderToken c.decoder = (Except.ok (JToken.Number s), d))
      ∨ ∃ k d1, c.types.getLast? = some typObject
          ∧ E.decoderToken c.decoder = (Except.ok (JToken.string k), d1)
          ∧ E.decoderToken d1 = (Except.ok (JToken.Number s), d)) :
    (∃ attr, c.Token E = some (Except.ok (XToken.StartElement "number" attr),
        { decoder := d, types := c.types ++ [typNumber], data := some s }))
    ∧ Converter.Token E { decoder := d, types := c.types ++ [typNumber], data := some s }
        = some (Except.ok (XToken.CharData s),
            { decoder := d, types := c.types ++ [typNumber], data := none }) := by
  constructor
  · rcases hread with h | ⟨k, d1, ho, h1, h2⟩
    · rcases hr with ho | ho | ho <;>
        exact ⟨[], by simp [Converter.Token, Converter.readLoop, Converter.round, ho, h,
          Result.ret, Converter.outputType, Converter.outputStart, ttype.String]⟩
    · exact ⟨[{ Name := "name", Value := k }],
        by simp [Converter.Token, Converter.readLoop, Converter.round, ho, h1, h2,
          Result.ret, Converter.outputType, Converter.outputStart, ttype.String]⟩
  · simp [Converter.Token]

/-- C13, at the number `1e10` in an array: its text goes through as it is. -/
theorem C13_number_text_witness :
    Reading (Converter.mk (reads [JToken.Number "1e10"]) [typArray] none)
    ∧ (∃ attr, Converter.Token (listEnv fun _ => "")
          { decoder := [Except.ok (JToken.Number "1e10")], types := [typArray], data := none }
        = some (Except.ok (XToken.StartElement "number" attr),
            { decoder := [], types := [typArray] ++ [typNumber], data := some "1e10" }))
    ∧ Converter.Token (listEnv fun _ => "")
          { decoder := [], types := [typArray] ++ [typNumber], data := some "1e10" }
        = some (Except.ok (XToken.CharData "1e10"),
            { decoder := [], types := [typArray] ++ [typNumber], data := none }) :=
  ⟨Or.inr (Or.inr rfl),
    C13_number_text (listEnv fun _ => "")
      { decoder := [Except.ok (JToken.Number "1e10")], types := [typArray], data := none }
      "1e10" [] (Or.inr (Or.inr rfl)) (Or.inl rfl)⟩

/-- C14. Element naming: the kinds `Object`, `Array`, `Boolean`, `Number`, `String`, `Null` have
the names `object`, `array`, `boolean`, `number`, `string`, `null`, six different names none of
which is the fallback `unknown`; and after every sequence of calls of `Token` from a fresh
converter, over any token source, every kind on the stack is one of the six and every start
and end token returned has one of the six names, so `unknown` is never returned. -/
theorem C14_element_naming {σ : Type} (E : Env σ) (j : σ) (k : Nat) (c : Converter σ)
    (rs : List (Except Error XToken)) (h : Converter.calls E k (Tokens j) = some (rs, c)) :
    [typObject, typArray, typBool, typNumber, typString, typNull].map ttype.String
      = ["object", "array", "boolean", "number", "string", "null"]
    ∧ ["object", "array", "boolean", "number", "string", "null"].Nodup
    ∧ "unknown" ∉ ["object", "array", "boolean", "number", "string", "null"]
    ∧ (∀ t ∈ c.types, t ≤ typNull)
    ∧ (∀ n attr, XToken.StartElement n attr ∈ emitted rs →
        n ∈ ["object", "array", "boolean", "number", "string", "null"] ∧ n ≠ "unknown")
    ∧ (∀ n, XToken.EndElement n ∈ emitted rs →
        n ∈ ["object", "array", "boolean", "number", "string", "null"] ∧ n ≠ "unknown") := by
  obtain ⟨hty, hnm⟩ := calls_named E j k c rs h
  have hun : ∀ n, n ∈ ["object", "array", "boolean", "number", "string", "null"] →
      n ≠ "unknown" := by
    intro n hn hu
    subst hu
    revert hn
    decide
  refine ⟨rfl, by decide, by decide, hty, ?_, ?_⟩
  · intro n attr hmem
    have h1 : n ∈ ["object", "array", "boolean", "number", "string", "null"] := hnm _ hmem
    exact ⟨h1, hun n h1⟩
  · intro n hmem
    have h1 : n ∈ ["object", "array", "boolean", "number", "string", "null"] := hnm _ hmem
    exact ⟨h1, hun n h1⟩

/-- C14, after the three calls over the document `null`. -/
theorem C14_element_naming_witness :
    Converter.calls (listEnv fun _ => "") 3 (Tokens [Except.ok JToken.null])
      = some ([Except.ok (XToken.StartElement "null" []), Except.ok (XToken.EndElement "null"),
            Except.error Error.EOF],
          { decoder := [], types := [], data := none })
    ∧ ("null" ∈ ["object", "array", "boolean", "number", "string", "null"]
        ∧ "null" ≠ "unknown") :=
  ⟨rfl, (C14_element_naming (listEnv fun _ => "") [Except.ok JToken.null] 3
    { decoder := [], types := [], data := none }
    [Except.ok (XToken.StartElement "null" []), Except.ok (XToken.EndElement "null"),
      Except.error Error.EOF] rfl).2.2.2.2.2 "null" (by simp [emitted])⟩

/-- C15. Empty run: over a source that reports `io.EOF` on its first read, `Convert` passes no
token to the sink and returns `nil`, with the stack empty and no pending value. -/
theorem C15_empty_run {σ τ : Type} (E : Env σ) (enc : τ → XToken → Option Error × τ)
    (j d : σ) (x : τ) (fuel : Nat) (h : E.decoderToken j = (Except.error Error.EOF, d)) :
    Convert E enc (fuel + 1) j x
      = { status := Status.returned none, c := { decoder := d, types := [], data := none },
          x := x, sent := [] } := by
  simp [Convert, Convert.loop, Converter.Token, Converter.readLoop, Converter.round, h]

/-- C15, at the list decoder with nothing to read. -/
theorem C15_empty_run_witness :
    listDecoder [] = (Except.error Error.EOF, [])
    ∧ Convert (listEnv fun _ => "") recorder 1 [] []
      = { status := Status.returned none, c := { decoder := [], types := [], data := none },
          x := [], sent := [] } :=
  ⟨rfl, C15_empty_run (listEnv fun _ => "") recorder [] [] [] 0 rfl⟩

/-- C16. The close-delimiter branch is reached only with a container on top: over the list
decoder of any prefix `p` of the tokens of a sequence of JSON values, every sequence of calls of
`Token` from a fresh converter goes through without a panic, the next call does not panic either,
and when that call reads a close delimiter (as its first token, or right after a key) the stack
is non-empty with `Object` or `Array` on top, so the index in `outputEnd` is in bounds. -/
theorem C16_close_in_bounds (fmt : float64 → String) (vs : List JValue) (p : List JToken)
    (hp : p <+: elemsTokens vs) (k : Nat) :
    (∃ rs c, Converter.calls (listEnv fmt) k (Tokens (reads p)) = some (rs, c))
    ∧ ∀ rs c, Converter.calls (listEnv fmt) k (Tokens (reads p)) = some (rs, c) →
        c.Token (listEnv fmt) ≠ none
        ∧ ((Reading c
              ∧ (((listEnv fmt).decoderToken c.decoder).1 = Except.ok (JToken.Delim Delim.objClose)
                ∨ ((listEnv fmt).decoderToken c.decoder).1
                    = Except.ok (JToken.Delim Delim.arrClose)))
            ∨ (c.types.getLast? = some typObject
              ∧ ∃ key d1, (listEnv fmt).decoderToken c.decoder = (Except.ok (JToken.string key), d1)
                ∧ (((listEnv fmt).decoderToken d1).1 = Except.ok (JToken.Delim Delim.objClose)
                  ∨ ((listEnv fmt).decoderToken d1).1 = Except.ok (JToken.Delim Delim.arrClose))) →
          c.types ≠ []
          ∧ (c.types.getLast? = some typObject ∨ c.types.getLast? = some typArray)) := by
  have h0 : ∃ q, Consumed p (Tokens (reads p)) q :=
    ⟨[], p, rfl, rfl, by intro t ht; simp [Tokens] at ht, by simp [Tokens, jdepth_nil, scalarTop]⟩
  refine ⟨calls_total fmt vs p hp k _ h0, ?_⟩
  intro rs c h
  obtain ⟨q, hq⟩ := calls_consumed fmt p k c rs h
  have hne := Token_ne_none_of_consumed fmt vs p q hp c hq
  refine ⟨hne, ?_⟩
  rintro (⟨hr, hclose⟩ | ⟨ho, _⟩)
  · have hnil : c.types ≠ [] := fun h1 => hne ((Token_none_iff (listEnv fmt) c).2 ⟨h1, hclose⟩)
    refine ⟨hnil, ?_⟩
    rcases hr with h1 | h1 | h1
    · exact absurd (List.getLast?_eq_none_iff.1 h1) hnil
    · exact Or.inl h1
    · exact Or.inr h1
  · refine ⟨?_, Or.inl ho⟩
    intro h1
    simp [h1] at ho

/-- C16, at the prefix `[`, `]` of the tokens of `[] 1`: after the start of the array the call
that reads `]` finds `Array` on top. -/
theorem C16_close_in_bounds_witness :
    [JToken.Delim Delim.arrOpen, JToken.Delim Delim.arrClose]
      <+: elemsTokens [JValue.array [], JValue.number "1"]
    ∧ Converter.calls (listEnv fun _ => "") 1
        (Tokens (reads [JToken.Delim Delim.arrOpen, JToken.Delim Delim.arrClose]))
      = some ([Except.ok (XToken.StartElement "array" [])],
          { decoder := reads [JToken.Delim Delim.arrClose], types := [typArray], data := none })
    ∧ Converter.Token (listEnv fun _ => "")
        { decoder := reads [JToken.Delim Delim.arrClose], types := [typArray], data := none }
      ≠ none
    ∧ (([typArray] : List ttype) ≠ []
      ∧ (([typArray] : List ttype).getLast? = some typObject
        ∨ ([typArray] : List ttype).getLast? = some typArray)) :=
  have hp : [JToken.Delim Delim.arrOpen, JToken.Delim Delim.arrClose]
      <+: elemsTokens [JValue.array [], JValue.number "1"] := ⟨[JToken.Number "1"], rfl⟩
  have h := (C16_close_in_bounds (fun _ => "") [JValue.array [], JValue.number "1"]
    [JToken.Delim Delim.arrOpen, JToken.Delim Delim.arrClose] hp 1).2
    [Except.ok (XToken.StartElement "array" [])]
    { decoder := reads [JToken.Delim Delim.arrClose], types := [typArray], data := none } rfl
  ⟨hp, rfl, h.1, h.2 (Or.inl ⟨Or.inr (Or.inr rfl), Or.inr rfl⟩)⟩

/-- C17. Bounded reads per call, over any token source with its reads counted (which changes
nothing in what `Token` returns). A call that returns has made at most two reads; none when a
scalar kind is on top of the stack; and two only when `Object` was on top and the first token
read was a string, the key. A call that panics has read one token, a close delimiter, with the
stack empty. And inside an object a string read right after the key is returned as a `string`
element with that key as attribute: it is not taken as a second key. -/
theorem C17_bounded_reads {σ : Type} (E : Env σ) (c : Converter (σ × Nat)) :
    (∀ r c1, c.Token (counting E) = some (r, c1) →
      c1.decoder.2 ≤ c.decoder.2 + 2
      ∧ (¬ Reading c → c1.decoder.2 = c.decoder.2)
      ∧ (c1.decoder.2 = c.decoder.2 + 2 →
          c.types.getLast? = some typObject
          ∧ ∃ k, (E.decoderToken c.decoder.1).1 = Except.ok (JToken.string k)))
    ∧ (c.Token (counting E) = none →
        c.types = []
        ∧ ((E.decoderToken c.decoder.1).1 = Except.ok (JToken.Delim Delim.objClose)
          ∨ (E.decoderToken c.decoder.1).1 = Except.ok (JToken.Delim Delim.arrClose)))
    ∧ (∀ k s d1 d2, c.types.getLast? = some typObject →
        E.decoderToken c.decoder.1 = (Except.ok (JToken.string k), d1) →
        E.decoderToken d1 = (Except.ok (JToken.string s), d2) →
        c.Token (counting E)
          = some (Except.ok (XToken.StartElement "string" [{ Name := "name", Value := k }]),
              { decoder := (d2, c.decoder.2 + 2), types := c.types ++ [typString],
                data := some s }))
    ∧ (c.Token (counting E)).map (fun p => (p.1, p.2.uncount)) = c.uncount.Token E := by
  refine ⟨?_, ?_, ?_, Token_counting E c⟩
  · intro r c1 h
    by_cases hr : Reading c
    · have hone : ∀ d0 : σ × Nat, ((counting E).decoderToken d0).2.2 = d0.2 + 1 := fun _ => rfl
      cases r with
      | error e =>
        obtain ⟨_, d0, hd0, hread, _, _⟩ := Token_error_cases (counting E) c c1 e h
        have h1 : c1.decoder.2 = d0.2 + 1 := by rw [← hone d0, hread]
        rcases hd0 with rfl | ⟨k, ho, hk⟩
        · exact ⟨by omega, fun hn => absurd hr hn, fun h2 => by omega⟩
        · have h2 : d0.2 = c.decoder.2 + 1 := by rw [← hone c.decoder, hk]
          have h3 : (E.decoderToken c.decoder.1).1 = Except.ok (JToken.string k) :=
            congrArg Prod.fst hk
          exact ⟨by omega, fun hn => absurd hr hn, fun _ => ⟨ho, k, h3⟩⟩
      | ok tk =>
        obtain ⟨key, tok, d0, hd0, _, hdec, _⟩ := Token_ok_reads (counting E) c c1 tk hr h
        have h1 : c1.decoder.2 = d0.2 + 1 := by rw [hdec, hone d0]
        rcases hd0 with ⟨_, rfl, _⟩ | ⟨k, _, ho, hk⟩
        · exact ⟨by omega, fun hn => absurd hr hn, fun h2 => by omega⟩
        · have h2 : d0.2 = c.decoder.2 + 1 := by rw [← hone c.decoder, hk]
          have h3 : (E.decoderToken c.decoder.1).1 = Except.ok (JToken.string k) :=
            congrArg Prod.fst hk
          exact ⟨by omega, fun hn => absurd hr hn, fun _ => ⟨ho, k, h3⟩⟩
    · obtain ⟨tk, c2, h2, hdec⟩ := Token_of_scalar (counting E) c hr
      rw [h2] at h
      simp only [Option.some.injEq, Prod.mk.injEq] at h
      obtain ⟨_, rfl⟩ := h
      rw [hdec]
      exact ⟨by omega, fun _ => rfl, fun h3 => by omega⟩
  · intro h
    exact (Token_none_iff (counting E) c).1 h
  · intro k s d1 d2 ho h1 h2
    simp [Converter.Token, Converter.readLoop, Converter.round, counting, ho, h1, h2,
      Result.ret, Converter.outputType, Converter.outputStart, ttype.String]

/-- C17, inside an object over the reads `"a"`, `"b"`: two reads, and `"b"` is the value. -/
theorem C17_bounded_reads_witness :
    Converter.Token (counting (listEnv fun _ => ""))
        { decoder := ([Except.ok (JToken.string "a"), Except.ok (JToken.string "b")], 0),
          types := [typObject], data := none }
      = some (Except.ok (XToken.StartElement "string" [{ Name := "name", Value := "a" }]),
          { decoder := ([], 0 + 2), types := [typObject] ++ [typString], data := some "b" })
    ∧ (0 + 2 ≤ 0 + 2) :=
  have h := C17_bounded_reads (listEnv fun _ => "")
    { decoder := ([Except.ok (JToken.string "a"), Except.ok (JToken.string "b")], 0),
      types := [typObject], data := none }
  ⟨h.2.2.1 "a" "b" [Except.ok (JToken.string "b")] [] rfl rfl rfl,
    (h.1 _ _ (h.2.2.1 "a" "b" [Except.ok (JToken.string "b")] [] rfl rfl rfl)).1⟩

/-- C18. State stays proportional to nesting depth: over the list decoder of any prefix `p` of
the tokens of a sequence of JSON values, after any sequence of calls of `Token` from a fresh
converter the converter has read a prefix `q` of `p`, and the depth of its stack is the number of
containers opened and not closed in `q`, plus one exactly when a scalar kind is on top, which is
when the innermost element started and not yet ended is a `boolean`, `number`, `string` or `null`;
so the depth is at most the deepest nesting among the values plus one. -/
theorem C18_stack_depth (fmt : float64 → String) (vs : List JValue) (p : List JToken)
    (hp : p <+: elemsTokens vs) (k : Nat) (c : Converter (List (Except Error JToken)))
    (rs : List (Except Error XToken))
    (h : Converter.calls (listEnv fmt) k (Tokens (reads p)) = some (rs, c)) :
    ∃ q rest, p = q ++ rest ∧ c.decoder = reads rest
      ∧ (c.types.length : Int) = jdepth q + scalarTop c.types
      ∧ (scalarTop c.types = 0 ∨ scalarTop c.types = 1)
      ∧ (scalarTop c.types = 1 ↔
          ∃ n, (openNames (emitted rs)).getLast? = some n
            ∧ n ∈ ["boolean", "number", "string", "null"])
      ∧ 0 ≤ jdepth q ∧ jdepth q ≤ elemsNesting vs
      ∧ c.types.length ≤ elemsNesting vs + 1 := by
  obtain ⟨q, rest, hpq, hdec, _, hlen⟩ := calls_consumed fmt p k c rs h
  have hnames := calls_names (listEnv fmt) (reads p) k c rs h
  have h5 := (calls_named (listEnv fmt) (reads p) k c rs h).1
  have hpre : q <+: elemsTokens vs := List.IsPrefix.trans ⟨rest, hpq.symm⟩ hp
  obtain ⟨hb0, hb1⟩ := (elemsTokens_balanced vs).2 q hpre
  have h01 : scalarTop c.types = 0 ∨ scalarTop c.types = 1 := by
    unfold scalarTop
    rcases c.types.getLast? with _ | t
    · exact Or.inl rfl
    · by_cases h2 : 2 ≤ t
      · exact Or.inr (by simp [h2])
      · exact Or.inl (by simp [h2])
  refine ⟨q, rest, hpq, hdec, hlen, h01, ?_, hb0, hb1, ?_⟩
  · rw [← hnames, List.getLast?_map]
    unfold scalarTop
    obtain ⟨o, hl⟩ : ∃ o, c.types.getLast? = o := ⟨_, rfl⟩
    rw [hl]
    rcases o with _ | t
    · simp
    · have ht := scalar_kind_iff_name t (h5 t (List.mem_of_getLast?_eq_some hl))
      by_cases h2 : 2 ≤ t
      · simp only [h2, if_true, true_iff, Option.map_some', Option.some.injEq]
        exact ⟨_, rfl, ht.1 h2⟩
      · simp only [h2, if_false, Option.map_some', Option.some.injEq]
        constructor
        · intro h3
          cases h3
        · rintro ⟨n, rfl, hn⟩
          exact absurd (ht.2 hn) h2
  · rcases h01 with h2 | h2 <;> rw [h2] at hlen <;> omega

/-- C18, inside the number of `[1]`: the tokens `[`, `1` are read, one container is open and a
scalar kind is on top, so the stack has depth two, the nesting of the value plus one. -/
theorem C18_stack_depth_witness :
    elemsTokens [JValue.array [JValue.number "1"]]
      <+: elemsTokens [JValue.array [JValue.number "1"]]
    ∧ Converter.calls (listEnv fun _ => "") 2
        (Tokens (reads (elemsTokens [JValue.array [JValue.number "1"]])))
      = some ([Except.ok (XToken.StartElement "array" []),
            Except.ok (XToken.StartElement "number" [])],
          { decoder := reads [JToken.Delim Delim.arrClose], types := [typArray, typNumber],
            data := some "1" })
    ∧ ∃ q rest, elemsTokens [JValue.array [JValue.number "1"]] = q ++ rest
      ∧ reads [JToken.Delim Delim.arrClose] = reads rest
      ∧ (([typArray, typNumber] : List ttype).length : Int)
          = jdepth q + scalarTop [typArray, typNumber]
      ∧ ([typArray, typNumber] : List ttype).length
          ≤ elemsNesting [JValue.array [JValue.number "1"]] + 1 :=
  have h := C18_stack_depth (fun _ => "") [JValue.array [JValue.number "1"]]
    (elemsTokens [JValue.array [JValue.number "1"]]) (List.prefix_refl _) 2
    { decoder := reads [JToken.Delim Delim.arrClose], types := [typArray, typNumber],
      data := some "1" }
    [Except.ok (XToken.StartElement "array" []), Except.ok (XToken.StartElement "number" [])] rfl
  ⟨List.prefix_refl _, rfl,
    h.elim fun q hq => hq.elim fun rest hr =>
      ⟨q, rest, hr.1, hr.2.1, hr.2.2.1, hr.2.2.2.2.2.2.2⟩⟩

end Json2xml
